import Mathlib

/-!
# Verification of the SCIP expression-graph engine excerpt

This development formalises the expression subsystem described by the
repository's specification: the expression handler record
(`struct SCIP_ConsExpr_ExprHdlr` from `struct_cons_expr.h`), the
reference-counted expression DAG (`struct SCIP_ConsExpr_Expr`), the
simplifier and common-subexpression interning layer, the quadratic
nonlinear-handler detection protocol exercised by
`tests/src/cons/expr/nlhdlr_quadratic.c`, and the statement loop of the
FlatZinc reader (`readFZNFile` / `readerReadFzn`).

The C implementations of the simplifier, the reference counting and the
quadratic detector are not part of the excerpt (only their data
structures and their test driver are), so those operations are modelled
from the specification text, at the granularity the tests observe.
Coefficients are modelled as rationals (the C code uses `SCIP_Real`).
-/

namespace ScipExpr

/-- Named unary functions of the restricted expression grammar
(`sin`, `cos`, `exp`, `log`, `abs`). -/
inductive FnK where
  | fexp : FnK
  | flog : FnK
  | fsin : FnK
  | fcos : FnK
  | fabs : FnK
deriving DecidableEq

/-- Expression trees of the expression constraint handler: variables,
numeric constants, N-ary sums with term coefficients and an additive
constant, N-ary products, integer powers, and named unary functions. -/
inductive Ex where
  | var : Nat → Ex
  | num : Rat → Ex
  | sum : List (Rat × Ex) → Rat → Ex
  | prod : List Ex → Ex
  | pw : Ex → Nat → Ex
  | fn : FnK → Ex → Ex

mutual

/-- Structural decidable equality for expression trees (numeric data
compares by value, variable references by identity of the variable
index). -/
def exDecEq : (a b : Ex) → Decidable (a = b)
  | .var i, .var j =>
    match Nat.decEq i j with
    | isTrue h => isTrue (h ▸ rfl)
    | isFalse h => isFalse (fun hc => h (Ex.var.inj hc))
  | .num p, .num q =>
    match decEq p q with
    | isTrue h => isTrue (h ▸ rfl)
    | isFalse h => isFalse (fun hc => h (Ex.num.inj hc))
  | .sum ts c, .sum us d =>
    match decEq c d, termsDecEq ts us with
    | isTrue h1, isTrue h2 => isTrue (by rw [h1, h2])
    | isFalse h1, _ => isFalse (fun hc => h1 (Ex.sum.inj hc).2)
    | _, isFalse h2 => isFalse (fun hc => h2 (Ex.sum.inj hc).1)
  | .prod fs, .prod gs =>
    match exListDecEq fs gs with
    | isTrue h => isTrue (h ▸ rfl)
    | isFalse h => isFalse (fun hc => h (Ex.prod.inj hc))
  | .pw a m, .pw b n =>
    match exDecEq a b, Nat.decEq m n with
    | isTrue h1, isTrue h2 => isTrue (by rw [h1, h2])
    | isFalse h1, _ => isFalse (fun hc => h1 (Ex.pw.inj hc).1)
    | _, isFalse h2 => isFalse (fun hc => h2 (Ex.pw.inj hc).2)
  | .fn f a, .fn g b =>
    match decEq f g, exDecEq a b with
    | isTrue h1, isTrue h2 => isTrue (by rw [h1, h2])
    | isFalse h1, _ => isFalse (fun hc => h1 (Ex.fn.inj hc).1)
    | _, isFalse h2 => isFalse (fun hc => h2 (Ex.fn.inj hc).2)
  | .var _, .num _ => isFalse (fun h => Ex.noConfusion h)
  | .var _, .sum _ _ => isFalse (fun h => Ex.noConfusion h)
  | .var _, .prod _ => isFalse (fun h => Ex.noConfusion h)
  | .var _, .pw _ _ => isFalse (fun h => Ex.noConfusion h)
  | .var _, .fn _ _ => isFalse (fun h => Ex.noConfusion h)
  | .num _, .var _ => isFalse (fun h => Ex.noConfusion h)
  | .num _, .sum _ _ => isFalse (fun h => Ex.noConfusion h)
  | .num _, .prod _ => isFalse (fun h => Ex.noConfusion h)
  | .num _, .pw _ _ => isFalse (fun h => Ex.noConfusion h)
  | .num _, .fn _ _ => isFalse (fun h => Ex.noConfusion h)
  | .sum _ _, .var _ => isFalse (fun h => Ex.noConfusion h)
  | .sum _ _, .num _ => isFalse (fun h => Ex.noConfusion h)
  | .sum _ _, .prod _ => isFalse (fun h => Ex.noConfusion h)
  | .sum _ _, .pw _ _ => isFalse (fun h => Ex.noConfusion h)
  | .sum _ _, .fn _ _ => isFalse (fun h => Ex.noConfusion h)
  | .prod _, .var _ => isFalse (fun h => Ex.noConfusion h)
  | .prod _, .num _ => isFalse (fun h => Ex.noConfusion h)
  | .prod _, .sum _ _ => isFalse (fun h => Ex.noConfusion h)
  | .prod _, .pw _ _ => isFalse (fun h => Ex.noConfusion h)
  | .prod _, .fn _ _ => isFalse (fun h => Ex.noConfusion h)
  | .pw _ _, .var _ => isFalse (fun h => Ex.noConfusion h)
  | .pw _ _, .num _ => isFalse (fun h => Ex.noConfusion h)
  | .pw _ _, .sum _ _ => isFalse (fun h => Ex.noConfusion h)
  | .pw _ _, .prod _ => isFalse (fun h => Ex.noConfusion h)
  | .pw _ _, .fn _ _ => isFalse (fun h => Ex.noConfusion h)
  | .fn _ _, .var _ => isFalse (fun h => Ex.noConfusion h)
  | .fn _ _, .num _ => isFalse (fun h => Ex.noConfusion h)
  | .fn _ _, .sum _ _ => isFalse (fun h => Ex.noConfusion h)
  | .fn _ _, .prod _ => isFalse (fun h => Ex.noConfusion h)
  | .fn _ _, .pw _ _ => isFalse (fun h => Ex.noConfusion h)

/-- Decidable equality for coefficient-term lists of a sum. -/
def termsDecEq : (ts us : List (Rat × Ex)) → Decidable (ts = us)
  | [], [] => isTrue rfl
  | (k, e) :: ts, (l, f) :: us =>
    match decEq k l, exDecEq e f, termsDecEq ts us with
    | isTrue h1, isTrue h2, isTrue h3 => isTrue (by rw [h1, h2, h3])
    | isFalse h1, _, _ =>
      isFalse (fun hc => h1 (congrArg Prod.fst (List.cons.inj hc).1))
    | _, isFalse h2, _ =>
      isFalse (fun hc => h2 (congrArg Prod.snd (List.cons.inj hc).1))
    | _, _, isFalse h3 => isFalse (fun hc => h3 (List.cons.inj hc).2)
  | [], _ :: _ => isFalse (fun h => List.noConfusion h)
  | _ :: _, [] => isFalse (fun h => List.noConfusion h)

/-- Decidable equality for factor lists of a product. -/
def exListDecEq : (fs gs : List Ex) → Decidable (fs = gs)
  | [], [] => isTrue rfl
  | e :: fs, f :: gs =>
    match exDecEq e f, exListDecEq fs gs with
    | isTrue h1, isTrue h2 => isTrue (by rw [h1, h2])
    | isFalse h1, _ => isFalse (fun hc => h1 (List.cons.inj hc).1)
    | _, isFalse h2 => isFalse (fun hc => h2 (List.cons.inj hc).2)
  | [], _ :: _ => isFalse (fun h => List.noConfusion h)
  | _ :: _, [] => isFalse (fun h => List.noConfusion h)

end

instance : DecidableEq Ex := exDecEq

/-- Is the expression a numeric-constant node? -/
def isNum : Ex → Bool
  | .num _ => true
  | _ => false

/-- Is the expression a sum node? -/
def isSum : Ex → Bool
  | .sum _ _ => true
  | _ => false

/-- Is the expression a product node? -/
def isProdE : Ex → Bool
  | .prod _ => true
  | _ => false

/-- Is the expression a power node? -/
def isPwE : Ex → Bool
  | .pw _ _ => true
  | _ => false

/-- Is the expression a variable node? -/
def isVarE : Ex → Bool
  | .var _ => true
  | _ => false

/-- Modelled from the spec: associativity normalization and constant
folding for sums (`cons_expr.c` simplify rules are not in the excerpt).
Flattens nested sums into one term list, multiplying coefficients
through, and folds numeric terms into the additive constant.  Returns
the flattened term list and the accumulated constant. -/
def sumFlat : List (Rat × Ex) → List (Rat × Ex) × Rat
  | [] => ([], 0)
  | (k, e) :: ts =>
    let r := sumFlat ts
    match e with
    | .num q => (r.1, k * q + r.2)
    | .sum us d =>
      let s := sumFlat us
      (s.1.map (fun p => (k * p.1, p.2)) ++ r.1, k * (d + s.2) + r.2)
    | _ => ((k, e) :: r.1, r.2)

/-- Modelled from the spec: degenerate-case elimination for sums — an
empty sum collapses to its constant, a sum with exactly one
coefficient-1 term and no constant collapses to that term. -/
def mkSum (ts : List (Rat × Ex)) (c : Rat) : Ex :=
  match ts with
  | [] => .num c
  | [(k, e)] => if k = 1 ∧ c = 0 then e else .sum ts c
  | _ => .sum ts c

/-- Modelled from the spec: associativity normalization and constant
folding for products.  Flattens nested products and multiplies all
numeric factors into one coefficient. -/
def prodFlat : List Ex → Rat × List Ex
  | [] => (1, [])
  | e :: fs =>
    let r := prodFlat fs
    match e with
    | .num c => (c * r.1, r.2)
    | .prod gs =>
      let s := prodFlat gs
      (s.1 * r.1, s.2 ++ r.2)
    | _ => (r.1, e :: r.2)

/-- View a factor as a base together with its integer multiplicity:
`b^k` contributes `(b, k)`, anything else contributes itself once. -/
def pwParts : Ex → Ex × Nat
  | .pw b k => (b, k)
  | e => (e, 1)

/-- Merge one `(base, multiplicity)` contribution into an association
list of grouped factors, keyed by structural equality of the base. -/
def addFactor (acc : List (Ex × Nat)) (p : Ex × Nat) : List (Ex × Nat) :=
  match acc with
  | [] => [p]
  | (b, m) :: rest =>
    if b = p.1 then (b, m + p.2) :: rest else (b, m) :: addFactor rest p

/-- Group the factors of a product by structural equality of their
bases, accumulating multiplicities; identical subexpressions occurring
as several factors thereby unify (`x*x` becomes the single grouped
factor `(x, 2)`). -/
def groupFactors (ps : List (Ex × Nat)) : List (Ex × Nat) :=
  ps.foldl addFactor []

/-- Rebuild a factor from a grouped base and multiplicity
(multiplicity 1 is the degenerate `b^1 = b` collapse). -/
def mkPw (b : Ex) (m : Nat) : Ex :=
  if m = 1 then b else .pw b m

/-- Modelled from the spec: degenerate-case elimination for products —
coefficient 0 annihilates, an empty product collapses to its
coefficient, a single factor with coefficient 1 collapses to that
factor; a non-unit coefficient is kept as a leading constant factor. -/
def mkProd (q : Rat) (fs : List Ex) : Ex :=
  if q = 0 then .num 0
  else
    match fs with
    | [] => .num q
    | [f] => if q = 1 then f else .prod [.num q, f]
    | _ => if q = 1 then .prod fs else .prod (.num q :: fs)

mutual

/-- Modelled from the spec: the local-rewrite simplifier of the graph
builder (`cons_expr.c` is not in the excerpt).  Applies, bottom-up:
flattening of nested sums/products, folding of numeric constants,
degenerate-case elimination (singleton sum/product, `b^1 = b`,
`b^0 = 1` under the documented policy `0^0 := 1`), and unification of
identical product factors into one power (`x*x` becomes `x^2`).
Transcendental functions of constants are left unfolded (their values
are not rational). -/
def simplify : Ex → Ex
  | .var i => .var i
  | .num q => .num q
  | .sum ts c =>
    let r := sumFlat (simpTerms ts)
    mkSum r.1 (c + r.2)
  | .prod fs =>
    let r := prodFlat (simpList fs)
    mkProd r.1 ((groupFactors (r.2.map pwParts)).map (fun bm => mkPw bm.1 bm.2))
  | .pw b k =>
    let b' := simplify b
    if k = 0 then .num 1
    else if k = 1 then b'
    else
      match b' with
      | .num q => .num (q ^ k)
      | _ => .pw b' k
  | .fn f a => .fn f (simplify a)

/-- Simplify every term expression of a sum, keeping coefficients. -/
def simpTerms : List (Rat × Ex) → List (Rat × Ex)
  | [] => []
  | (k, e) :: ts => (k, simplify e) :: simpTerms ts

/-- Simplify every factor of a product. -/
def simpList : List Ex → List Ex
  | [] => []
  | f :: fs => simplify f :: simpList fs

end

/-- Characterisation of simplified expressions (the normal forms of
`simplify`): sums are nonempty, flat (no sum or constant terms) and not
degenerate singletons; products carry at most one leading non-unit
constant factor, no nested products, and have pairwise distinct factor
bases; powers have exponent at least 2 and a non-constant base. -/
inductive IsS : Ex → Prop where
  | var (i : Nat) : IsS (.var i)
  | num (q : Rat) : IsS (.num q)
  | sum (ts : List (Rat × Ex)) (c : Rat)
      (hne : ts ≠ [])
      (hS : ∀ p ∈ ts, IsS p.2)
      (hclean : ∀ p ∈ ts, isNum p.2 = false ∧ isSum p.2 = false)
      (hsing : ∀ k e, ts = [(k, e)] → ¬(k = 1 ∧ c = 0)) :
      IsS (.sum ts c)
  | prodPlain (l : List Ex)
      (hlen : 2 ≤ l.length)
      (hS : ∀ f ∈ l, IsS f)
      (hclean : ∀ f ∈ l, isNum f = false ∧ isProdE f = false)
      (hnodup : ((l.map pwParts).map Prod.fst).Nodup) :
      IsS (.prod l)
  | prodCoef (q : Rat) (l : List Ex)
      (hq0 : q ≠ 0) (hq1 : q ≠ 1)
      (hlen : 1 ≤ l.length)
      (hS : ∀ f ∈ l, IsS f)
      (hclean : ∀ f ∈ l, isNum f = false ∧ isProdE f = false)
      (hnodup : ((l.map pwParts).map Prod.fst).Nodup) :
      IsS (.prod (.num q :: l))
  | pw (b : Ex) (k : Nat) (hk : 2 ≤ k) (hb : IsS b) (hnum : isNum b = false) :
      IsS (.pw b k)
  | fn (f : FnK) (a : Ex) (ha : IsS a) : IsS (.fn f a)

/-- A well-formed base/multiplicity contribution: a simplified
non-constant base with positive multiplicity, and a multiplicity-1
contribution is an entire (non-power, non-product) factor. -/
def GoodPair (p : Ex × Nat) : Prop :=
  IsS p.1 ∧ isNum p.1 = false ∧ 1 ≤ p.2 ∧
    (p.2 = 1 → isPwE p.1 = false ∧ isProdE p.1 = false)

/-! ## The shared expression graph (arena of nodes)

`struct SCIP_ConsExpr_Expr` stores a handler reference, expression
data and children; shared subexpressions are represented by several
parents holding the same node.  We model the graph as an arena (list)
of nodes whose children are arena indices; node identity is the index,
and common-subexpression detection interns structurally equal nodes to
the same index. -/

/-- A node of the expression graph: the operator kind together with
its data and the indices of its children in the arena
(`struct SCIP_ConsExpr_Expr`, with the handler reference replaced by
the operator kind). -/
inductive Node where
  | nvar : Nat → Node
  | nnum : Rat → Node
  | nsum : List (Rat × Nat) → Rat → Node
  | nprod : List Nat → Node
  | npw : Nat → Nat → Node
  | nfn : FnK → Nat → Node
deriving DecidableEq

/-- An expression graph: nodes addressed by stable indices; a node's
children always precede it ("children are more elementary than
parents"). -/
abbrev Arena := List Node

/-- The child indices held by a node's child slots. -/
def Node.childIdxs : Node → List Nat
  | .nvar _ => []
  | .nnum _ => []
  | .nsum ts _ => ts.map Prod.snd
  | .nprod js => js
  | .npw j _ => [j]
  | .nfn _ j => [j]

/-- Well-formedness of an arena: every child slot points strictly
below its owner, so the graph is acyclic by construction. -/
def ArenaWF (a : Arena) : Prop :=
  ∀ i n, a.get? i = some n → ∀ j ∈ n.childIdxs, j < i

/-- First index of a structurally equal node in the arena, if any. -/
def idxOfNode : Arena → Node → Option Nat
  | [], _ => none
  | m :: rest, n => if m = n then some 0 else (idxOfNode rest n).map (· + 1)

/-- Intern a single node: if a structurally equal node is already
present return its (first) index — this is the hash-based
common-subexpression unification — otherwise append the node. -/
def internNode (a : Arena) (n : Node) : Arena × Nat :=
  match idxOfNode a n with
  | some i => (a, i)
  | none => (a ++ [n], a.length)

mutual

/-- Modelled from the spec: bottom-up construction of the shared
expression graph from a tree, unifying structurally equal
subexpressions into one shared node (`cons_expr.c` is not in the
excerpt).  Returns the extended arena and the index of the root. -/
def intern : Arena → Ex → Arena × Nat
  | a, .var i => internNode a (.nvar i)
  | a, .num q => internNode a (.nnum q)
  | a, .sum ts c =>
    let r := internTerms a ts
    internNode r.1 (.nsum r.2 c)
  | a, .prod fs =>
    let r := internList a fs
    internNode r.1 (.nprod r.2)
  | a, .pw b k =>
    let r := intern a b
    internNode r.1 (.npw r.2 k)
  | a, .fn f x =>
    let r := intern a x
    internNode r.1 (.nfn f r.2)

/-- Intern the term expressions of a sum, left to right. -/
def internTerms : Arena → List (Rat × Ex) → Arena × List (Rat × Nat)
  | a, [] => (a, [])
  | a, (k, e) :: ts =>
    let r := intern a e
    let s := internTerms r.1 ts
    (s.1, (k, r.2) :: s.2)

/-- Intern the factors of a product, left to right. -/
def internList : Arena → List Ex → Arena × List Nat
  | a, [] => (a, [])
  | a, e :: es =>
    let r := intern a e
    let s := internList r.1 es
    (s.1, r.2 :: s.2)

end

/-- Fuel-bounded reading of the tree rooted at an index (the fuel is
immaterial on well-formed arenas whenever it exceeds the index). -/
def readbackF : Nat → Arena → Nat → Ex
  | 0, _, _ => .num 0
  | f + 1, a, i =>
    match a.get? i with
    | some (.nvar v) => .var v
    | some (.nnum q) => .num q
    | some (.nsum ts c) => .sum (ts.map (fun p => (p.1, readbackF f a p.2))) c
    | some (.nprod js) => .prod (js.map (readbackF f a))
    | some (.npw j k) => .pw (readbackF f a j) k
    | some (.nfn g j) => .fn g (readbackF f a j)
    | none => .num 0

/-- The expression tree rooted at an index of the graph. -/
def readback (a : Arena) (i : Nat) : Ex := readbackF (i + 1) a i

/-- Graph-level simplification: read the tree rooted at a node,
simplify it, and intern the result back into the graph, sharing all
already-present nodes. -/
def gsimplify (a : Arena) (i : Nat) : Arena × Nat :=
  intern a (simplify (readback a i))

/-- Boolean well-formedness check for arenas: every node's child slots
point strictly below the node. -/
def wfFrom : Nat → List Node → Bool
  | _, [] => true
  | i, n :: rest => n.childIdxs.all (fun j => decide (j < i)) && wfFrom (i + 1) rest

/-! ## The quadratic nonlinear-handler detection protocol

`cons_expr_nlhdlr_quadratic.c` is not part of the excerpt; the detector
is modelled from the specification (§4.4) at the granularity its test
driver `tests/src/cons/expr/nlhdlr_quadratic.c` observes. -/

/-- The enforcement-method capability set announced by a nonlinear
handler (`SCIP_CONSEXPR_EXPRENFO_METHOD` bit set: separation below and
above, interval evaluation, reverse propagation). -/
structure EnfoMethod where
  sepabelow : Bool
  sepaabove : Bool
  inteval : Bool
  reverseprop : Bool
deriving DecidableEq

/-- No capability (`SCIP_CONSEXPR_EXPRENFO_NONE`). -/
def enfoNone : EnfoMethod := ⟨false, false, false, false⟩

/-- Bounds-propagation only (`INTEVAL | REVERSEPROP`). -/
def enfoProp : EnfoMethod := ⟨false, false, true, true⟩

/-- Relaxation-capable (`SEPABELOW | INTEVAL | REVERSEPROP`). -/
def enfoSepaBelowProp : EnfoMethod := ⟨true, false, true, true⟩

/-- One quadratic entry of the decomposition (`SCIP_QUADEXPRTERM`): the
base subexpression with its linear and square coefficients. -/
structure QuadExprTerm where
  qexpr : Nat
  lincoef : Rat
  sqrcoef : Rat
deriving DecidableEq

/-- One bilinear cross-term of the decomposition
(`SCIP_BILINEXPRTERM`). -/
structure BilinExprTerm where
  expr1 : Nat
  expr2 : Nat
  coef : Rat
deriving DecidableEq

/-- The quadratic decomposition produced by detection
(`SCIP_CONSEXPR_NLHDLREXPRDATA` of the quadratic handler). -/
structure NlhdlrExprData where
  quadexprterms : List QuadExprTerm
  bilinexprterms : List BilinExprTerm
deriving DecidableEq

/-- Classification of one additive term of the scanned sum. -/
inductive TermClass where
  | square : Nat → Rat → TermClass
  | bilin : Nat → Nat → Rat → TermClass
  | linear : Nat → Rat → TermClass
deriving DecidableEq

/-- Structural lookup of the node stored at an index. -/
def nodeAt : Arena → Nat → Option Node
  | [], _ => none
  | n :: _, 0 => some n
  | _ :: rest, i + 1 => nodeAt rest i

/-- The direct additive structure of the scanned expression: the terms
of the root sum, or the expression itself as a one-term sum. -/
def termsOf (a : Arena) (r : Nat) : List (Rat × Nat) :=
  match nodeAt a r with
  | some (.nsum ts _) => ts
  | _ => [(1, r)]

/-- Modelled from the spec: classification of one additive term
(§4.4, `cons_expr_nlhdlr_quadratic.c` absent from the excerpt).  A
square power or a product of the same shared node twice is a square
term; a product of two distinct shared nodes is a bilinear term with
the pair canonicalized by the stable total order of creation indices;
anything else is a degree-1 term in the subexpression itself. -/
def classifyTerm (a : Arena) (p : Rat × Nat) : TermClass :=
  match nodeAt a p.2 with
  | some (.npw b e) => if e = 2 then .square b p.1 else .linear p.2 p.1
  | some (.nprod [u, v]) =>
    if u = v then .square u p.1 else .bilin (min u v) (max u v) p.1
  | _ => .linear p.2 p.1

/-- The shared subexpressions a classified term mentions. -/
def mentionsOf : TermClass → List Nat
  | .square b _ => [b]
  | .bilin u v _ => [u, v]
  | .linear e _ => [e]

/-- Does the index list contain a repeated entry? -/
def hasDupIdx : List Nat → Bool
  | [] => false
  | x :: xs => xs.contains x || hasDupIdx xs

/-- Modelled from the spec: the detector claims an expression only if
its shared structure ties the terms together — some shared subexpression
occurs in at least two additive terms (§4.3's load-bearing sharing;
this is what rejects `x^2 + y^2 + w*z`, whose four nodes each occur
once, "per the source's own classification"). -/
def properQuadratic (cls : List TermClass) : Bool :=
  hasDupIdx ((cls.map mentionsOf).join)

/-- Is the node a power or product node?  A bilinear factor of this
shape makes the additive term cubic-like (e.g. `z^2 * x`). -/
def isPwOrProdNode (a : Arena) (i : Nat) : Bool :=
  match nodeAt a i with
  | some (.npw _ _) => true
  | some (.nprod _) => true
  | _ => false

/-- Modelled from the spec: a disqualifying non-bilinear cubic-like
term (§4.4's special case, e.g. `x^2 * y`) — a product term one of
whose factors is itself a power or product. -/
def cubicLike (a : Arena) (cls : List TermClass) : Bool :=
  cls.any (fun c =>
    match c with
    | .bilin u v _ => isPwOrProdNode a u || isPwOrProdNode a v
    | _ => false)

/-- Add a square contribution to the entry of a base subexpression,
creating the entry (by node identity) on first sight. -/
def upsertSqr (qs : List QuadExprTerm) (b : Nat) (c : Rat) : List QuadExprTerm :=
  match qs with
  | [] => [⟨b, 0, c⟩]
  | q :: rest =>
    if q.qexpr = b then { q with sqrcoef := q.sqrcoef + c } :: rest
    else q :: upsertSqr rest b c

/-- Add a linear contribution to the entry of a subexpression,
creating the entry (by node identity) on first sight. -/
def upsertLin (qs : List QuadExprTerm) (e : Nat) (c : Rat) : List QuadExprTerm :=
  match qs with
  | [] => [⟨e, c, 0⟩]
  | q :: rest =>
    if q.qexpr = e then { q with lincoef := q.lincoef + c } :: rest
    else q :: upsertLin rest e c

/-- Fold one classified term into the decomposition. -/
def buildStep (d : NlhdlrExprData) (c : TermClass) : NlhdlrExprData :=
  match c with
  | .square b k => { d with quadexprterms := upsertSqr d.quadexprterms b k }
  | .linear e k => { d with quadexprterms := upsertLin d.quadexprterms e k }
  | .bilin u v k => { d with bilinexprterms := d.bilinexprterms ++ [⟨u, v, k⟩] }

/-- Modelled from the spec: the decomposition built from the classified
terms in order (§3's QuadraticDecomposition). -/
def buildQuadData (cls : List TermClass) : NlhdlrExprData :=
  cls.foldl buildStep ⟨[], []⟩

/-- The solver-level state the detector can touch: the number of
problem variables and the identity-keyed memo of subexpressions already
given an auxiliary variable. -/
structure SolverState where
  nvars : Nat
  auxannot : List Nat
deriving DecidableEq

/-- Is the node a variable expression?  Its auxiliary variable is the
variable itself, so none is created for it. -/
def isVarNode (a : Arena) (i : Nat) : Bool :=
  match nodeAt a i with
  | some (.nvar _) => true
  | _ => false

/-- Create the auxiliary variable of a subexpression if it is not a
variable expression and has none yet (identity-based memoization keyed
by node). -/
def ensureAuxVar (a : Arena) (st : SolverState) (i : Nat) : SolverState :=
  if isVarNode a i then st
  else if st.auxannot.contains i then st
  else { nvars := st.nvars + 1, auxannot := st.auxannot ++ [i] }

/-- All subexpressions referenced by the decomposition. -/
def dataExprs (d : NlhdlrExprData) : List Nat :=
  d.quadexprterms.map QuadExprTerm.qexpr ++
    (d.bilinexprterms.map (fun b => [b.expr1, b.expr2])).join

/-- The detection outcome visible to the caller (`detectHdlrQuadratic`
output parameters: success flag, provided capability set, enforcement
sides, and the decomposition, null on rejection). -/
structure DetectResult where
  success : Bool
  provided : EnfoMethod
  enforcebelow : Bool
  enforceabove : Bool
  nlhdlrexprdata : Option NlhdlrExprData
deriving DecidableEq

/-- Modelled from the spec: the quadratic nonlinear handler's detection
callback `detectHdlrQuadratic` (`cons_expr_nlhdlr_quadratic.c`, absent
from the excerpt), at the granularity its test driver observes.  The
simplified root's additive terms are classified (§4.4); detection
succeeds only for a proper quadratic (shared structure ties at least
two terms together); a cubic-like term reduces the capability to
bounds propagation with no separation; in the separation-capable
outcome the subexpressions of the decomposition receive auxiliary
variables (idempotently, as exercised by `detectandfree2`, which frees
the auxiliary variables detection created), while rejection and the
propagation-only outcome leave the variable set untouched
(`onlyPropagation` checks `SCIPgetNVars == 4`). -/
def detectHdlrQuadratic (a : Arena) (st : SolverState) (r : Nat) :
    DetectResult × SolverState :=
  let cls := (termsOf a r).map (classifyTerm a)
  if properQuadratic cls then
    let d := buildQuadData cls
    if cubicLike a cls then
      (⟨true, enfoProp, false, false, some d⟩, st)
    else
      (⟨true, enfoSepaBelowProp, true, false, some d⟩,
       (dataExprs d).foldl (ensureAuxVar a) st)
  else
    (⟨false, enfoNone, false, false, none⟩, st)

/-- The test driver's problem state: four variables `x`, `y`, `w`,
`z`, no auxiliary variables yet. -/
def stInit : SolverState := ⟨4, []⟩

/-- The simplified graph of `x^2 + x` over the shared node of `x`
(node 0), as in test `detectandfree1`. -/
def arenaXsqPlusX : Arena :=
  [.nvar 0, .npw 0 2, .nsum [(1, 1), (1, 0)] 0]

/-- The simplified graph of `x^2 + y^2 + w*z` over four distinct
variable nodes, as in test `noproperquadratic1`. -/
def arenaUnshared : Arena :=
  [.nvar 0, .nvar 1, .nvar 2, .nvar 3,
   .npw 0 2, .npw 1 2, .nprod [2, 3],
   .nsum [(1, 4), (1, 5), (1, 6)] 0]

/-- The simplified graph of `x^2 + y^2 + z^2 * x` with the shared node
of `x` also a factor of the cubic-like term, as in test
`onlyPropagation`. -/
def arenaPropOnly : Arena :=
  [.nvar 0, .nvar 1, .nvar 2,
   .npw 0 2, .npw 1 2, .npw 2 2, .nprod [5, 0],
   .nsum [(1, 3), (1, 4), (1, 6)] 0]

/-- The simplified graph of `x^2 + 2*x*w + w^2` with
`w = exp(x^2 * y)` a shared non-variable node, as in test
`detectandfree2`. -/
def arenaBilin : Arena :=
  [.nvar 0, .nvar 1, .npw 0 2, .nprod [2, 1], .nfn .fexp 3,
   .npw 4 2, .nprod [0, 4],
   .nsum [(1, 2), (2, 6), (1, 5)] 0]

/-! ## The expression handler record (`struct SCIP_ConsExpr_ExprHdlr`,
`struct_cons_expr.h`) -/

/-- Placeholder for one callback function pointer (the callback
signatures live in `type_cons_expr.h`, outside the excerpt; only
presence or absence — NULL — of each callback matters here). -/
structure HdlrCallback where
  id : Nat
deriving DecidableEq

/-- Placeholder for handler-private data
(`SCIP_CONSEXPR_EXPRHDLRDATA`). -/
structure ExprHdlrData where
  id : Nat
deriving DecidableEq

/-- The expression handler record of `struct_cons_expr.h`: handler
name, description (can be NULL), handler data, and the five callback
slots the struct declares — `copyhdlr`, `freehdlr`, `copydata`,
`freedata`, `print` (each can be NULL). -/
structure SCIP_ConsExpr_ExprHdlr where
  name : String
  desc : Option String
  data : Option ExprHdlrData
  copyhdlr : Option HdlrCallback
  freehdlr : Option HdlrCallback
  copydata : Option HdlrCallback
  freedata : Option HdlrCallback
  print : Option HdlrCallback
deriving DecidableEq

/-- The names of the callback capability slots the source record
declares, in declaration order (`struct_cons_expr.h`). -/
def srcExprHdlrCallbackSlots : List String :=
  ["copyhdlr", "freehdlr", "copydata", "freedata", "print"]

/-- Per the spec's words: the callback capability slots the
specification claims the handler record carries ("copy, free,
evaluate, print, simplify, hash, differentiate, interval-evaluate"). -/
def specClaimedCallbackSlots : List String :=
  ["copy", "free", "evaluate", "print", "simplify", "hash", "differentiate",
   "interval-evaluate"]

/-! ## Reference counting over the expression graph (`nuses` of
`struct SCIP_ConsExpr_Expr`; capture/release are modelled from the
spec, `cons_expr.c` being outside the excerpt). -/

/-- Positional read with default. -/
def getL {α : Type} (d : α) : List α → Nat → α
  | [], _ => d
  | x :: _, 0 => x
  | _ :: rest, i + 1 => getL d rest i

/-- Positional write (no-op out of range). -/
def setL {α : Type} : List α → Nat → α → List α
  | [], _, _ => []
  | _ :: rest, 0, v => v :: rest
  | x :: rest, i + 1, v => x :: setL rest i v

/-- Reference-counting state over an arena: per-node reference count
(`nuses`) and liveness. -/
structure RcState where
  rc : List Nat
  alive : List Bool
deriving DecidableEq

/-- The child indices of the node stored at an index. -/
def childIdxsAt (a : Arena) (i : Nat) : List Nat :=
  match nodeAt a i with
  | some n => n.childIdxs
  | none => []

/-- Modelled from the spec: `capture` — the reference count of a node
increases by one when an additional owning reference is stored. -/
def captureExpr (st : RcState) (i : Nat) : RcState :=
  { st with rc := setL st.rc i (getL 0 st.rc i + 1) }

/-- Modelled from the spec: removing one hold on a node — decrement the
reference count; on reaching zero the node frees its data, releases
each child slot recursively and is deallocated.  The fuel only bounds
the recursion depth; on well-formed arenas child indices strictly
decrease, so `i + 1` fuel always suffices for node `i`. -/
def removeHold (a : Arena) : Nat → RcState → Nat → RcState
  | 0, st, _ => st
  | f + 1, st, i =>
    match getL 0 st.rc i with
    | 0 => st
    | 1 =>
      let st' : RcState := { rc := setL st.rc i 0, alive := setL st.alive i false }
      (childIdxsAt a i).foldl (removeHold a f) st'
    | _ + 2 => { st with rc := setL st.rc i (getL 0 st.rc i - 1) }

/-- Modelled from the spec: `release` — drop one external hold on the
node, with recursive teardown at zero. -/
def releaseExpr (a : Arena) (st : RcState) (i : Nat) : RcState :=
  removeHold a (i + 1) st i

/-- A capture or release call on one node. -/
inductive RcOp where
  | cap : Nat → RcOp
  | rel : Nat → RcOp
deriving DecidableEq

/-- Run a sequence of capture/release calls. -/
def runRcOps (a : Arena) (st : RcState) : List RcOp → RcState
  | [] => st
  | .cap i :: ops => runRcOps a (captureExpr st i) ops
  | .rel i :: ops => runRcOps a (releaseExpr a st i) ops

/-- A sequence is safe when every operation addresses an existing node
and every release finds at least two holds (so no node is torn down
mid-sequence — double release is a precondition violation, not a
recoverable error). -/
def safeRcOps (a : Arena) : RcState → List RcOp → Bool
  | _, [] => true
  | st, .cap i :: ops =>
    decide (i < st.rc.length) && safeRcOps a (captureExpr st i) ops
  | st, .rel i :: ops =>
    decide (i < st.rc.length) && decide (2 ≤ getL 0 st.rc i) &&
      safeRcOps a (releaseExpr a st i) ops

/-- Number of captures of a node in a sequence. -/
def countCapOf (i : Nat) : List RcOp → Nat
  | [] => 0
  | .cap j :: ops => (if j = i then 1 else 0) + countCapOf i ops
  | .rel _ :: ops => countCapOf i ops

/-- Number of releases of a node in a sequence. -/
def countRelOf (i : Nat) : List RcOp → Nat
  | [] => 0
  | .rel j :: ops => (if j = i then 1 else 0) + countRelOf i ops
  | .cap _ :: ops => countRelOf i ops

/-- Number of owning child slots of live nodes pointing at a node. -/
def slotCount (a : Arena) (alive : List Bool) (i : Nat) : Nat :=
  ((a.zip alive).map (fun p => if p.2 then p.1.childIdxs.count i else 0)).sum

/-- The reference-count invariant: every node's count equals the
number of owning slots pointing at it — live parents' child slots plus
external root holds. -/
def RcInv (a : Arena) (st : RcState) (ext : List Nat) : Prop :=
  ∀ i, getL 0 st.rc i = slotCount a st.alive i + getL 0 ext i

/-- Kind of a FlatZinc statement, by its leading keyword as dispatched
in readFZNFile: array, constraint, int, float, bool, set, solve, var,
output, or an unknown keyword treated as a range-typed constant. -/
inductive StmtKind where
  | arrayDecl
  | constraintDecl
  | intConst
  | floatConst
  | boolConst
  | setDecl
  | solveItem
  | varDecl
  | outputItem
  | unknownConst
deriving DecidableEq

/-- One statement of the input at the granularity readFZNFile observes:
its keyword kind, whether its body (including the closing semicolon)
parses, the line number and offending-token identity reported on
failure, and the problem items it contributes on success. -/
structure Stmt where
  kind : StmtKind
  parseOk : Bool
  line : Nat
  tok : Nat
  payload : List Nat
deriving DecidableEq

/-- A reported diagnostic: the line number and the token in hand when
the error was issued, as printed by the error reporter. -/
structure Diag where
  line : Nat
  tok : Nat
deriving DecidableEq

/-- Reader state: the problem built so far (as item identifiers), the
haserror and valid flags, the emitted diagnostics, whether the
objective sense was installed, and whether the read returned early
from inside the statement loop. -/
structure FznState where
  prob : List Nat
  haserror : Bool
  valid : Bool
  diags : List Diag
  objsenseSet : Bool
  earlyret : Bool
deriving DecidableEq

/-- hasError: an error was detected — haserror is set or valid was
cleared. -/
def fznHasError (st : FznState) : Bool :=
  st.haserror || !st.valid

/-- Items contributed by a statement list. -/
def payloadsOf : List Stmt → List Nat
  | [] => []
  | s :: rest => s.payload ++ payloadsOf rest

/-- The statement loop of readFZNFile.  Before each statement the loop
re-checks hasError and stops if it holds.  A set item warns, clears
valid and breaks; an output item breaks; every other statement either
parses (its items are appended and the loop continues) or issues an
error diagnostic with the current line and token and sets haserror —
where an unknown-keyword constant additionally returns from the whole
read at once (earlyret), while the known keywords fall to the loop
head which then stops. -/
def readStmts : List Stmt → FznState → FznState
  | [], st => st
  | s :: rest, st =>
    if fznHasError st then st
    else match s.kind with
      | .setDecl => { st with valid := false }
      | .outputItem => st
      | .unknownConst =>
        if s.parseOk then
          readStmts rest { st with prob := st.prob ++ s.payload }
        else
          { st with haserror := true,
                    diags := st.diags ++ [⟨s.line, s.tok⟩],
                    earlyret := true }
      | _ =>
        if s.parseOk then
          readStmts rest { st with prob := st.prob ++ s.payload }
        else
          { st with haserror := true,
                    diags := st.diags ++ [⟨s.line, s.tok⟩] }

/-- State at entry of the statement loop: a fresh problem holding the
two auxiliary true/false variables, no errors, no diagnostics. -/
def initFznState : FznState :=
  { prob := [0, 1], haserror := false, valid := true, diags := [],
    objsenseSet := false, earlyret := false }

/-- readFZNFile: create the problem with the two auxiliary variables,
run the statement loop, then — unless the unknown-keyword path already
returned — on error free the problem and create an empty one, and
otherwise install the objective sense. -/
def readFZNFile (stmts : List Stmt) : FznState :=
  if (readStmts stmts initFznState).earlyret then readStmts stmts initFznState
  else if fznHasError (readStmts stmts initFznState) then
    { readStmts stmts initFznState with prob := [] }
  else { readStmts stmts initFznState with objsenseSet := true }

/-- Result code of the read callback. -/
inductive RetCode where
  | okSuccess
  | parseError
deriving DecidableEq

/-- readerReadFzn: run readFZNFile, then report a parse error exactly
when haserror is set (the valid flag is not consulted), else success. -/
def readerReadFzn (stmts : List Stmt) : RetCode × FznState :=
  (if (readFZNFile stmts).haserror then RetCode.parseError else RetCode.okSuccess,
   readFZNFile stmts)

/-- A statement the loop passes over and continues: it parses and is
neither a set item nor an output item (both of which break). -/
def ContinuingStmt (s : Stmt) : Prop :=
  s.parseOk = true ∧ s.kind ≠ StmtKind.setDecl ∧ s.kind ≠ StmtKind.outputItem

namespace Ex

/-- Strong induction principle for `Ex` that hands membership-based
induction hypotheses for the list-valued children. -/
theorem strongInd (P : Ex → Prop)
    (hvar : ∀ i, P (.var i))
    (hnum : ∀ q, P (.num q))
    (hsum : ∀ ts c, (∀ p ∈ ts, P p.2) → P (.sum ts c))
    (hprod : ∀ fs, (∀ f ∈ fs, P f) → P (.prod fs))
    (hpw : ∀ b k, P b → P (.pw b k))
    (hfn : ∀ k a, P a → P (.fn k a)) : ∀ e, P e
  | .var i => hvar i
  | .num q => hnum q
  | .sum ts c => hsum ts c (fun p hp =>
      have : sizeOf p.2 < 1 + sizeOf ts + sizeOf c := by
        have h1 := List.sizeOf_lt_of_mem hp
        cases p with
        | mk a b =>
          simp only [Prod.mk.sizeOf_spec] at h1
          show sizeOf b < 1 + sizeOf ts + sizeOf c
          omega
      strongInd P hvar hnum hsum hprod hpw hfn p.2)
  | .prod fs => hprod fs (fun f hf =>
      have : sizeOf f < 1 + sizeOf fs := by
        have h1 := List.sizeOf_lt_of_mem hf
        omega
      strongInd P hvar hnum hsum hprod hpw hfn f)
  | .pw b k => hpw b k (strongInd P hvar hnum hsum hprod hpw hfn b)
  | .fn k a => hfn k a (strongInd P hvar hnum hsum hprod hpw hfn a)
termination_by e => sizeOf e

end Ex

/-- Flattening is the identity on a term list whose expressions are
neither constants nor sums. -/
theorem sumFlat_clean (l : List (Rat × Ex))
    (h : ∀ p ∈ l, isNum p.2 = false ∧ isSum p.2 = false) :
    sumFlat l = (l, 0) := by
  induction l with
  | nil => simp [sumFlat]
  | cons p ts ih =>
    obtain ⟨k, e⟩ := p
    have he := h (k, e) (List.mem_cons_self _ _)
    have hts : sumFlat ts = (ts, 0) := ih (fun p hp => h p (List.mem_cons_of_mem _ hp))
    cases e with
    | num q => simp [isNum] at he
    | sum us d => simp [isSum] at he
    | var i => simp [sumFlat, hts]
    | prod fs => simp [sumFlat, hts]
    | pw b m => simp [sumFlat, hts]
    | fn f a => simp [sumFlat, hts]

/-- Flattening is the identity (with unit coefficient) on a factor list
containing no constants and no nested products. -/
theorem prodFlat_clean (l : List Ex)
    (h : ∀ f ∈ l, isNum f = false ∧ isProdE f = false) :
    prodFlat l = (1, l) := by
  induction l with
  | nil => simp [prodFlat]
  | cons e fs ih =>
    have he := h e (List.mem_cons_self _ _)
    have hfs : prodFlat fs = (1, fs) := ih (fun f hf => h f (List.mem_cons_of_mem _ hf))
    cases e with
    | num q => simp [isNum] at he
    | prod gs => simp [isProdE] at he
    | var i => simp [prodFlat, hfs]
    | sum ts c => simp [prodFlat, hfs]
    | pw b m => simp [prodFlat, hfs]
    | fn f a => simp [prodFlat, hfs]

/-- Merging a contribution whose base is new appends it. -/
theorem addFactor_of_not_mem (acc : List (Ex × Nat)) (p : Ex × Nat)
    (h : p.1 ∉ acc.map Prod.fst) : addFactor acc p = acc ++ [p] := by
  induction acc with
  | nil => rfl
  | cons q rest ih =>
    obtain ⟨b, m⟩ := q
    simp only [List.map_cons, List.mem_cons] at h
    push_neg at h
    simp only [addFactor, if_neg (Ne.symm h.1), List.cons_append, List.cons.injEq, true_and]
    exact ih h.2

/-- Grouping from an accumulator is the identity when all bases are
pairwise distinct. -/
theorem foldl_addFactor_nodup (ps acc : List (Ex × Nat))
    (h : ((acc ++ ps).map Prod.fst).Nodup) :
    ps.foldl addFactor acc = acc ++ ps := by
  induction ps generalizing acc with
  | nil => simp
  | cons p ps ih =>
    have hmem : p.1 ∉ acc.map Prod.fst := by
      intro hc
      rw [List.map_append, List.nodup_append] at h
      exact h.2.2 hc (by simp)
    rw [List.foldl_cons, addFactor_of_not_mem acc p hmem, ih (acc ++ [p]) (by simpa using h)]
    simp

/-- Grouping is the identity on contribution lists with pairwise
distinct bases. -/
theorem groupFactors_nodup_id (ps : List (Ex × Nat))
    (h : (ps.map Prod.fst).Nodup) : groupFactors ps = ps := by
  simpa [groupFactors] using foldl_addFactor_nodup ps [] (by simpa using h)

/-- Term-wise simplification is the identity when each term expression
is already a fixed point. -/
theorem simpTerms_id (l : List (Rat × Ex)) (h : ∀ p ∈ l, simplify p.2 = p.2) :
    simpTerms l = l := by
  induction l with
  | nil => rfl
  | cons p ts ih =>
    obtain ⟨k, e⟩ := p
    rw [simpTerms, h (k, e) (List.mem_cons_self _ _),
      ih (fun p hp => h p (List.mem_cons_of_mem _ hp))]

/-- Factor-wise simplification is the identity when each factor is
already a fixed point. -/
theorem simpList_id (l : List Ex) (h : ∀ f ∈ l, simplify f = f) :
    simpList l = l := by
  induction l with
  | nil => rfl
  | cons f fs ih =>
    rw [simpList, h f (List.mem_cons_self _ _),
      ih (fun g hg => h g (List.mem_cons_of_mem _ hg))]

/-- Rebuilding a simplified factor from its base/multiplicity view is
the identity. -/
theorem mkPw_pwParts_self (f : Ex) (h : IsS f) :
    mkPw (pwParts f).1 (pwParts f).2 = f := by
  cases f with
  | pw b k =>
    cases h with
    | pw b k hk hb hnum =>
      have h1 : k ≠ 1 := by omega
      simp [pwParts, mkPw, h1]
  | var i => rfl
  | num q => rfl
  | sum ts c => rfl
  | prod l => rfl
  | fn f a => rfl

/-- `mkSum` builds a real sum node whenever the degenerate collapses do
not apply. -/
theorem mkSum_eq_sum (ts : List (Rat × Ex)) (c : Rat) (hne : ts ≠ [])
    (hsing : ∀ k e, ts = [(k, e)] → ¬(k = 1 ∧ c = 0)) :
    mkSum ts c = .sum ts c := by
  match ts with
  | [] => exact absurd rfl hne
  | [(k, e)] => simp [mkSum, hsing k e rfl]
  | p :: q :: ts => rfl

/-- `mkProd` with unit coefficient and at least two factors builds a
plain product node. -/
theorem mkProd_one (l : List Ex) (hlen : 2 ≤ l.length) :
    mkProd 1 l = .prod l := by
  match l with
  | [] => simp at hlen
  | [f] => simp at hlen
  | f :: g :: l => simp [mkProd]

/-- `mkProd` with a non-degenerate coefficient keeps it as a leading
constant factor. -/
theorem mkProd_coef (q : Rat) (l : List Ex) (hq0 : q ≠ 0) (hq1 : q ≠ 1)
    (hlen : 1 ≤ l.length) : mkProd q l = .prod (.num q :: l) := by
  match l with
  | [] => simp at hlen
  | [f] => simp [mkProd, hq0, hq1]
  | f :: g :: l => simp [mkProd, hq0, hq1]

/-- Rebuilding every simplified factor from its base/multiplicity view
is the identity on the factor list. -/
theorem map_mkPw_pwParts_self (l : List Ex) (h : ∀ f ∈ l, IsS f) :
    (l.map pwParts).map (fun bm => mkPw bm.1 bm.2) = l := by
  induction l with
  | nil => rfl
  | cons f fs ih =>
    simp only [List.map_cons, List.cons.injEq]
    exact ⟨mkPw_pwParts_self f (h f (List.mem_cons_self _ _)),
      ih (fun g hg => h g (List.mem_cons_of_mem _ hg))⟩

/-- Simplification is the identity on simplified expressions: calling
`simplify` on an already-simplified expression is a no-op. -/
theorem simplify_of_IsS (e : Ex) (h : IsS e) : simplify e = e := by
  induction h with
  | var i => rfl
  | num q => rfl
  | sum ts c hne hS hclean hsing ih =>
    rw [simplify, simpTerms_id ts ih, sumFlat_clean ts hclean]
    simpa using mkSum_eq_sum ts c hne hsing
  | prodPlain l hlen hS hclean hnodup ih =>
    rw [simplify, simpList_id l ih, prodFlat_clean l hclean]
    show mkProd 1 ((groupFactors (l.map pwParts)).map fun bm => mkPw bm.1 bm.2) = .prod l
    rw [groupFactors_nodup_id _ hnodup, map_mkPw_pwParts_self l hS]
    exact mkProd_one l hlen
  | prodCoef q l hq0 hq1 hlen hS hclean hnodup ih =>
    have hall : ∀ f ∈ Ex.num q :: l, simplify f = f := by
      intro f hf
      rcases List.mem_cons.mp hf with h | h
      · subst h; rfl
      · exact ih f h
    rw [simplify, simpList_id _ hall, prodFlat]
    rw [prodFlat_clean l hclean]
    show mkProd (q * 1) ((groupFactors (l.map pwParts)).map fun bm => mkPw bm.1 bm.2)
      = .prod (.num q :: l)
    rw [mul_one, groupFactors_nodup_id _ hnodup, map_mkPw_pwParts_self l hS]
    exact mkProd_coef q l hq0 hq1 hlen
  | pw b k hk hb hnum ih =>
    rw [simplify, ih]
    have h0 : k ≠ 0 := by omega
    have h1 : k ≠ 1 := by omega
    simp only [if_neg h0, if_neg h1]
    cases b with
    | num q => simp [isNum] at hnum
    | var i => rfl
    | sum ts c => rfl
    | prod l => rfl
    | pw b m => rfl
    | fn f a => rfl
  | fn f a ha ih => rw [simplify, ih]

theorem simpTerms_eq_map (l : List (Rat × Ex)) :
    simpTerms l = l.map (fun p => (p.1, simplify p.2)) := by
  induction l with
  | nil => rfl
  | cons p ts ih => obtain ⟨k, e⟩ := p; rw [simpTerms, ih]; rfl

theorem simpList_eq_map (l : List Ex) : simpList l = l.map simplify := by
  induction l with
  | nil => rfl
  | cons f fs ih => rw [simpList, ih]; rfl

/-- The term list produced by sum flattening consists of simplified
expressions that are neither constants nor sums. -/
theorem sumFlat_terms (l : List (Rat × Ex)) (h : ∀ p ∈ l, IsS p.2) :
    ∀ p ∈ (sumFlat l).1, IsS p.2 ∧ isNum p.2 = false ∧ isSum p.2 = false := by
  induction l with
  | nil => intro p hp; simp [sumFlat] at hp
  | cons t ts ih =>
    obtain ⟨k, e⟩ := t
    have he : IsS e := h (k, e) (List.mem_cons_self _ _)
    have ihts := ih (fun p hp => h p (List.mem_cons_of_mem _ hp))
    intro p hp
    cases e with
    | num q => exact ihts p (by simpa [sumFlat] using hp)
    | sum us d =>
      cases he with
      | sum us d hne hS hclean hsing =>
        simp only [sumFlat, sumFlat_clean us hclean, List.mem_append, List.mem_map] at hp
        rcases hp with ⟨u, hu, hup⟩ | hp
        · have := hS u hu
          have := hclean u hu
          cases hup
          exact ⟨by assumption, by assumption⟩
        · exact ihts p hp
    | var i =>
      simp only [sumFlat, List.mem_cons] at hp
      rcases hp with h' | h'
      · subst h'; exact ⟨he, rfl, rfl⟩
      · exact ihts p h'
    | prod fs =>
      simp only [sumFlat, List.mem_cons] at hp
      rcases hp with h' | h'
      · subst h'; exact ⟨he, rfl, rfl⟩
      · exact ihts p h'
    | pw b m =>
      simp only [sumFlat, List.mem_cons] at hp
      rcases hp with h' | h'
      · subst h'; exact ⟨he, rfl, rfl⟩
      · exact ihts p h'
    | fn f a =>
      simp only [sumFlat, List.mem_cons] at hp
      rcases hp with h' | h'
      · subst h'; exact ⟨he, rfl, rfl⟩
      · exact ihts p h'

/-- The factor list produced by product flattening consists of
simplified expressions that are neither constants nor products. -/
theorem prodFlat_factors (l : List Ex) (h : ∀ f ∈ l, IsS f) :
    ∀ g ∈ (prodFlat l).2, IsS g ∧ isNum g = false ∧ isProdE g = false := by
  induction l with
  | nil => intro g hg; simp [prodFlat] at hg
  | cons e fs ih =>
    have he : IsS e := h e (List.mem_cons_self _ _)
    have ihfs := ih (fun f hf => h f (List.mem_cons_of_mem _ hf))
    intro g hg
    cases e with
    | num q => exact ihfs g (by simpa [prodFlat] using hg)
    | prod gs =>
      cases he with
      | prodPlain gs hlen hS hclean hnodup =>
        simp only [prodFlat, prodFlat_clean gs hclean, List.mem_append] at hg
        rcases hg with hg | hg
        · exact ⟨hS g hg, hclean g hg⟩
        · exact ihfs g hg
      | prodCoef q gs hq0 hq1 hlen hS hclean hnodup =>
        simp only [prodFlat, prodFlat_clean gs hclean, List.mem_append] at hg
        rcases hg with hg | hg
        · exact ⟨hS g hg, hclean g hg⟩
        · exact ihfs g hg
    | var i =>
      simp only [prodFlat, List.mem_cons] at hg
      rcases hg with h' | h'
      · subst h'; exact ⟨he, rfl, rfl⟩
      · exact ihfs g h'
    | sum ts c =>
      simp only [prodFlat, List.mem_cons] at hg
      rcases hg with h' | h'
      · subst h'; exact ⟨he, rfl, rfl⟩
      · exact ihfs g h'
    | pw b m =>
      simp only [prodFlat, List.mem_cons] at hg
      rcases hg with h' | h'
      · subst h'; exact ⟨he, rfl, rfl⟩
      · exact ihfs g h'
    | fn f a =>
      simp only [prodFlat, List.mem_cons] at hg
      rcases hg with h' | h'
      · subst h'; exact ⟨he, rfl, rfl⟩
      · exact ihfs g h'

/-- Every entry of a merged accumulator either refines an accumulator
entry (same base, at least its multiplicity) or is the new pair. -/
theorem addFactor_items (acc : List (Ex × Nat)) (p : Ex × Nat) :
    ∀ it ∈ addFactor acc p, (∃ q ∈ acc, q.1 = it.1 ∧ q.2 ≤ it.2) ∨ it = p := by
  induction acc with
  | nil =>
    intro it hit
    simp only [addFactor, List.mem_singleton] at hit
    exact Or.inr hit
  | cons q rest ih =>
    obtain ⟨b, m⟩ := q
    intro it hit
    simp only [addFactor] at hit
    by_cases hb : b = p.1
    · rw [if_pos hb] at hit
      rcases List.mem_cons.mp hit with h' | h'
      · exact Or.inl ⟨(b, m), List.mem_cons_self _ _, by subst h'; exact ⟨rfl, by omega⟩⟩
      · exact Or.inl ⟨it, List.mem_cons_of_mem _ h', rfl, le_refl _⟩
    · rw [if_neg hb] at hit
      rcases List.mem_cons.mp hit with h' | h'
      · exact Or.inl ⟨(b, m), List.mem_cons_self _ _, by subst h'; exact ⟨rfl, le_refl _⟩⟩
      · rcases ih it h' with ⟨q', hq', he, hle⟩ | he
        · exact Or.inl ⟨q', List.mem_cons_of_mem _ hq', he, hle⟩
        · exact Or.inr he

/-- Every entry of a grouping fold traces back, with at most its
multiplicity, to the accumulator or to one of the contributions. -/
theorem foldl_addFactor_items (ps acc : List (Ex × Nat)) :
    ∀ it ∈ ps.foldl addFactor acc,
      (∃ q ∈ acc, q.1 = it.1 ∧ q.2 ≤ it.2) ∨ (∃ p ∈ ps, p.1 = it.1 ∧ p.2 ≤ it.2) := by
  induction ps generalizing acc with
  | nil => intro it hit; exact Or.inl ⟨it, hit, rfl, le_refl _⟩
  | cons p ps ih =>
    intro it hit
    rw [List.foldl_cons] at hit
    rcases ih (addFactor acc p) it hit with ⟨q, hq, he, hle⟩ | ⟨r, hr, he, hle⟩
    · rcases addFactor_items acc p q hq with ⟨q', hq', he', hle'⟩ | he'
      · exact Or.inl ⟨q', hq', he' ▸ he, le_trans hle' hle⟩
      · exact Or.inr ⟨p, List.mem_cons_self _ _, he' ▸ he, he' ▸ hle⟩
    · exact Or.inr ⟨r, List.mem_cons_of_mem _ hr, he, hle⟩

/-- Every grouped factor entry traces back to a contribution with the
same base and no larger multiplicity. -/
theorem groupFactors_items (ps : List (Ex × Nat)) :
    ∀ it ∈ groupFactors ps, ∃ p ∈ ps, p.1 = it.1 ∧ p.2 ≤ it.2 := by
  intro it hit
  rcases foldl_addFactor_items ps [] it hit with ⟨q, hq, _⟩ | h
  · simp at hq
  · exact h

/-- Merging a contribution leaves the base list unchanged when the base
is already present, and appends it otherwise. -/
theorem addFactor_bases (acc : List (Ex × Nat)) (p : Ex × Nat) :
    (addFactor acc p).map Prod.fst =
      if p.1 ∈ acc.map Prod.fst then acc.map Prod.fst else acc.map Prod.fst ++ [p.1] := by
  induction acc with
  | nil => simp [addFactor]
  | cons q rest ih =>
    obtain ⟨b, m⟩ := q
    by_cases hb : b = p.1
    · simp [addFactor, hb]
    · have : ¬ p.1 = b := fun h => hb h.symm
      simp only [addFactor, if_neg hb, List.map_cons, ih, List.mem_cons, this, false_or]
      by_cases hmem : p.1 ∈ rest.map Prod.fst
      · simp [hmem]
      · simp [hmem]

/-- A grouping fold preserves distinctness of the base list. -/
theorem foldl_addFactor_nodup_bases (ps acc : List (Ex × Nat))
    (h : (acc.map Prod.fst).Nodup) : ((ps.foldl addFactor acc).map Prod.fst).Nodup := by
  induction ps generalizing acc with
  | nil => exact h
  | cons p ps ih =>
    rw [List.foldl_cons]
    refine ih (addFactor acc p) ?_
    rw [addFactor_bases]
    by_cases hmem : p.1 ∈ acc.map Prod.fst
    · simpa [hmem] using h
    · rw [if_neg hmem, List.nodup_append]
      refine ⟨h, List.nodup_singleton _, ?_⟩
      intro a ha hb
      rw [List.mem_singleton] at hb
      exact hmem (hb ▸ ha)

/-- Grouped factor entries have pairwise distinct bases. -/
theorem groupFactors_nodup_bases (ps : List (Ex × Nat)) :
    ((groupFactors ps).map Prod.fst).Nodup :=
  foldl_addFactor_nodup_bases ps [] (by simp)

/-- The base/multiplicity view of a simplified non-constant,
non-product factor is well formed. -/
theorem pwParts_good (f : Ex) (hf : IsS f) (hnum : isNum f = false)
    (hprod : isProdE f = false) : GoodPair (pwParts f) := by
  cases f with
  | pw b k =>
    cases hf with
    | pw b k hk hb hbnum =>
      refine ⟨hb, hbnum, ?_, fun h => ?_⟩
      · show 1 ≤ k
        omega
      · exact absurd (show k = 1 from h) (by omega)
  | var i => exact ⟨hf, rfl, le_refl _, fun _ => ⟨rfl, rfl⟩⟩
  | num q => simp [isNum] at hnum
  | sum ts c => exact ⟨hf, rfl, le_refl _, fun _ => ⟨rfl, rfl⟩⟩
  | prod l => simp [isProdE] at hprod
  | fn f a => exact ⟨hf, rfl, le_refl _, fun _ => ⟨rfl, rfl⟩⟩

/-- Grouping preserves well-formedness of contributions. -/
theorem groupFactors_good (ps : List (Ex × Nat)) (h : ∀ p ∈ ps, GoodPair p) :
    ∀ it ∈ groupFactors ps, GoodPair it := by
  intro it hit
  obtain ⟨p, hp, hbase, hle⟩ := groupFactors_items ps it hit
  obtain ⟨hS, hnum, hpos, hone⟩ := h p hp
  refine ⟨hbase ▸ hS, hbase ▸ hnum, le_trans hpos hle, fun h1 => ?_⟩
  have hp1 : p.2 = 1 := by omega
  obtain ⟨ha, hb⟩ := hone hp1
  exact ⟨hbase ▸ ha, hbase ▸ hb⟩

/-- Rebuilding a factor from a well-formed grouped contribution yields
a simplified non-constant, non-product factor whose base/multiplicity
view is the contribution itself. -/
theorem mkPw_good (b : Ex) (m : Nat) (h : GoodPair (b, m)) :
    IsS (mkPw b m) ∧ isNum (mkPw b m) = false ∧ isProdE (mkPw b m) = false ∧
      pwParts (mkPw b m) = (b, m) := by
  obtain ⟨hS, hnum, hpos, hone⟩ := h
  by_cases h1 : m = 1
  · subst h1
    obtain ⟨hpw, hprod⟩ := hone rfl
    rw [mkPw, if_pos rfl]
    refine ⟨hS, hnum, hprod, ?_⟩
    cases b with
    | pw c k => simp [isPwE] at hpw
    | var i => rfl
    | num q => rfl
    | sum ts c => rfl
    | prod l => rfl
    | fn f a => rfl
  · rw [mkPw, if_neg h1]
    exact ⟨IsS.pw b m (by omega) hS hnum, rfl, rfl, rfl⟩

/-- `mkSum` always produces a simplified expression from flattened
simplified terms. -/
theorem mkSum_IsS (ts : List (Rat × Ex)) (c : Rat)
    (h : ∀ p ∈ ts, IsS p.2 ∧ isNum p.2 = false ∧ isSum p.2 = false) :
    IsS (mkSum ts c) := by
  match ts with
  | [] => exact IsS.num c
  | [(k, e)] =>
    rw [mkSum]
    by_cases hc : k = 1 ∧ c = 0
    · rw [if_pos hc]
      exact (h (k, e) (List.mem_singleton_self _)).1
    · rw [if_neg hc]
      refine IsS.sum _ c (by simp) (fun p hp => (h p hp).1) (fun p hp => (h p hp).2) ?_
      intro k' e' heq
      obtain ⟨h1, h2⟩ := List.cons.inj heq
      obtain ⟨hk, he⟩ := Prod.mk.inj h1
      subst hk
      exact hc
  | p :: q :: ts =>
    refine IsS.sum _ c (by simp) (fun p hp => (h p hp).1) (fun p hp => (h p hp).2) ?_
    intro k' e' heq
    simp at heq

/-- Maps agreeing on all members of a list agree on the list. -/
theorem map_congr_mem {α β : Type} (l : List α) (f g : α → β) (h : ∀ a ∈ l, f a = g a) :
    l.map f = l.map g := by
  induction l with
  | nil => rfl
  | cons a l ih =>
    rw [List.map_cons, List.map_cons, h a (List.mem_cons_self _ _),
      ih (fun b hb => h b (List.mem_cons_of_mem _ hb))]

/-- `mkProd` always produces a simplified expression from simplified,
constant-free, product-free factors with distinct bases. -/
theorem mkProd_IsS (q : Rat) (l : List Ex)
    (h : ∀ f ∈ l, IsS f ∧ isNum f = false ∧ isProdE f = false)
    (hnodup : ((l.map pwParts).map Prod.fst).Nodup) :
    IsS (mkProd q l) := by
  match l with
  | [] =>
    rw [mkProd]
    by_cases hq0 : q = 0
    · rw [if_pos hq0]; exact IsS.num 0
    · rw [if_neg hq0]; exact IsS.num q
  | [f] =>
    rw [mkProd]
    by_cases hq0 : q = 0
    · rw [if_pos hq0]; exact IsS.num 0
    rw [if_neg hq0]
    by_cases hq1 : q = 1
    · rw [if_pos hq1]
      exact (h f (List.mem_singleton_self _)).1
    · rw [if_neg hq1]
      exact IsS.prodCoef q [f] hq0 hq1 (by simp) (fun g hg => (h g hg).1)
        (fun g hg => (h g hg).2) hnodup
  | f :: g :: l' =>
    simp only [mkProd]
    by_cases hq0 : q = 0
    · rw [if_pos hq0]; exact IsS.num 0
    rw [if_neg hq0]
    by_cases hq1 : q = 1
    · rw [if_pos hq1]
      exact IsS.prodPlain _ (by simp only [List.length_cons]; omega)
        (fun g' hg => (h g' hg).1) (fun g' hg => (h g' hg).2) hnodup
    · rw [if_neg hq1]
      exact IsS.prodCoef q _ hq0 hq1 (by simp only [List.length_cons]; omega)
        (fun g' hg => (h g' hg).1) (fun g' hg => (h g' hg).2) hnodup

/-- `simplify` produces simplified expressions: the output of one
simplification pass is a fixed point of every rewrite rule. -/
theorem simplify_IsS : ∀ e, IsS (simplify e) := by
  intro e
  induction e using Ex.strongInd with
  | hvar i => exact IsS.var i
  | hnum q => exact IsS.num q
  | hsum ts c ih =>
    rw [simplify]
    have hterms : ∀ p ∈ simpTerms ts, IsS p.2 := by
      intro p hp
      rw [simpTerms_eq_map] at hp
      obtain ⟨r, hr, he⟩ := List.mem_map.mp hp
      subst he
      exact ih r hr
    exact mkSum_IsS _ _ (sumFlat_terms _ hterms)
  | hprod fs ih =>
    rw [simplify]
    have hfact : ∀ f ∈ simpList fs, IsS f := by
      intro f hf
      rw [simpList_eq_map] at hf
      obtain ⟨r, hr, he⟩ := List.mem_map.mp hf
      subst he
      exact ih r hr
    have hcore := prodFlat_factors _ hfact
    have hgoodps : ∀ p ∈ ((prodFlat (simpList fs)).2.map pwParts), GoodPair p := by
      intro p hp
      obtain ⟨g, hg, he⟩ := List.mem_map.mp hp
      obtain ⟨h1, h2, h3⟩ := hcore g hg
      exact he ▸ pwParts_good g h1 h2 h3
    have hgooditems := groupFactors_good _ hgoodps
    refine mkProd_IsS _ _ ?_ ?_
    · intro f hf
      obtain ⟨bm, hbm, he⟩ := List.mem_map.mp hf
      obtain ⟨h1, h2, h3, _⟩ := mkPw_good bm.1 bm.2 (hgooditems bm hbm)
      exact he ▸ ⟨h1, h2, h3⟩
    · rw [List.map_map, List.map_map]
      have hcongr := map_congr_mem (groupFactors ((prodFlat (simpList fs)).2.map pwParts))
        ((Prod.fst ∘ pwParts) ∘ fun bm => mkPw bm.1 bm.2) Prod.fst
        (fun bm hbm => by
          show (pwParts (mkPw bm.1 bm.2)).1 = bm.1
          rw [(mkPw_good bm.1 bm.2 (hgooditems bm hbm)).2.2.2])
      rw [hcongr]
      exact groupFactors_nodup_bases _
  | hpw b k ih =>
    rw [simplify]
    by_cases h0 : k = 0
    · rw [if_pos h0]; exact IsS.num 1
    rw [if_neg h0]
    by_cases h1 : k = 1
    · rw [if_pos h1]; exact ih
    rw [if_neg h1]
    cases hb : simplify b with
    | num q => exact IsS.num _
    | var i => exact IsS.pw _ k (by omega) (hb ▸ ih) (by simp [isNum])
    | sum ts c => exact IsS.pw _ k (by omega) (hb ▸ ih) (by simp [isNum])
    | prod l => exact IsS.pw _ k (by omega) (hb ▸ ih) (by simp [isNum])
    | pw c m => exact IsS.pw _ k (by omega) (hb ▸ ih) (by simp [isNum])
    | fn f a => exact IsS.pw _ k (by omega) (hb ▸ ih) (by simp [isNum])
  | hfn f a ih =>
    rw [simplify]
    exact IsS.fn f _ ih

/-- Simplification is idempotent as a function on expression trees:
re-simplifying a simplified expression changes nothing. -/
theorem simplify_idem (e : Ex) : simplify (simplify e) = simplify e :=
  simplify_of_IsS _ (simplify_IsS e)

/-- A found node index is in range and holds the node. -/
theorem idxOfNode_some_get (a : Arena) (n : Node) (i : Nat)
    (h : idxOfNode a n = some i) : i < a.length ∧ a.get? i = some n := by
  induction a generalizing i with
  | nil => simp [idxOfNode] at h
  | cons m rest ih =>
    rw [idxOfNode] at h
    by_cases hm : m = n
    · rw [if_pos hm] at h
      injection h with h
      subst h
      subst hm
      exact ⟨by simp, rfl⟩
    · rw [if_neg hm] at h
      obtain ⟨j, hj, he⟩ := Option.map_eq_some'.mp h
      obtain ⟨h1, h2⟩ := ih j hj
      subst he
      exact ⟨by simpa using h1, by simpa using h2⟩

/-- Searching an extended arena finds the entry found in the prefix. -/
theorem idxOfNode_append_some (a ext : Arena) (n : Node) (i : Nat)
    (h : idxOfNode a n = some i) : idxOfNode (a ++ ext) n = some i := by
  induction a generalizing i with
  | nil => simp [idxOfNode] at h
  | cons m rest ih =>
    rw [idxOfNode] at h
    rw [List.cons_append, idxOfNode]
    by_cases hm : m = n
    · rwa [if_pos hm] at h ⊢
    · rw [if_neg hm] at h ⊢
      obtain ⟨j, hj, he⟩ := Option.map_eq_some'.mp h
      rw [ih j hj]
      simpa using he

/-- Appending a fresh node makes it findable at the old length. -/
theorem idxOfNode_append_new (a : Arena) (n : Node)
    (h : idxOfNode a n = none) : idxOfNode (a ++ [n]) n = some a.length := by
  induction a with
  | nil => simp [idxOfNode]
  | cons m rest ih =>
    rw [idxOfNode] at h
    rw [List.cons_append, idxOfNode]
    by_cases hm : m = n
    · rw [if_pos hm] at h; cases h
    · rw [if_neg hm] at h ⊢
      rw [ih (by simpa using h)]
      simp

/-- An appended-to list that equals the original has empty extension. -/
theorem append_eq_self {α : Type} (a ext : List α) (h : a ++ ext = a) : ext = [] := by
  have hl := congrArg List.length h
  simp at hl
  exact hl

/-- Interning a node preserves well-formedness, only appends, returns
an in-range index holding the node. -/
theorem internNode_inv (a : Arena) (n : Node) (hwf : ArenaWF a)
    (hch : ∀ j ∈ n.childIdxs, j < a.length) :
    ArenaWF (internNode a n).1 ∧ (∃ ext, (internNode a n).1 = a ++ ext) ∧
      (internNode a n).2 < (internNode a n).1.length ∧
      (internNode a n).1.get? (internNode a n).2 = some n := by
  rw [internNode]
  cases hf : idxOfNode a n with
  | some i =>
    obtain ⟨hlen, hget⟩ := idxOfNode_some_get a n i hf
    exact ⟨hwf, ⟨[], by simp⟩, hlen, hget⟩
  | none =>
    refine ⟨?_, ⟨[n], rfl⟩, by simp, by simp [List.get?_concat_length]⟩
    intro i m hm j hj
    rcases Nat.lt_trichotomy i a.length with hi | hi | hi
    · rw [List.get?_append hi] at hm
      exact hwf i m hm j hj
    · subst hi
      rw [List.get?_concat_length] at hm
      injection hm with hm
      subst hm
      exact hch j hj
    · rw [List.get?_eq_none.mpr (by simp; omega)] at hm
      cases hm

/-- Reading below the old length is unaffected by extending a
well-formed arena. -/
theorem readbackF_append (f : Nat) (a ext : Arena) (hwf : ArenaWF a) :
    ∀ i, i < a.length → readbackF f (a ++ ext) i = readbackF f a i := by
  induction f with
  | zero => intro i _; rfl
  | succ f ih =>
    intro i hi
    rw [readbackF, readbackF, List.get?_append hi]
    cases hg : a.get? i with
    | none => rfl
    | some n =>
      have hch : ∀ j ∈ n.childIdxs, j < a.length :=
        fun j hj => lt_trans (hwf i n hg j hj) hi
      cases n with
      | nvar v => rfl
      | nnum q => rfl
      | nsum ts c =>
        simp only [Ex.sum.injEq, and_true]
        refine map_congr_mem _ _ _ (fun p hp => ?_)
        have : p.2 < a.length := hch p.2 (by simp [Node.childIdxs]; exact ⟨p.1, hp⟩)
        rw [ih p.2 this]
      | nprod js =>
        simp only [Ex.prod.injEq]
        exact map_congr_mem _ _ _ (fun j hj => ih j (hch j hj))
      | npw j k =>
        dsimp only
        rw [ih j (hch j (by simp [Node.childIdxs]))]
      | nfn g j =>
        dsimp only
        rw [ih j (hch j (by simp [Node.childIdxs]))]

/-- On a well-formed arena any fuel exceeding the index reads the same
tree. -/
theorem readbackF_mono (a : Arena) (hwf : ArenaWF a) :
    ∀ i, ∀ f, i < f → readbackF f a i = readback a i := by
  intro i
  induction i using Nat.strong_induction_on with
  | _ i ih =>
    intro f hf
    match f with
    | g + 1 =>
      rw [readback, readbackF, readbackF]
      cases hg : a.get? i with
      | none => rfl
      | some n =>
        have hch : ∀ j ∈ n.childIdxs, j < i := hwf i n hg
        cases n with
        | nvar v => rfl
        | nnum q => rfl
        | nsum ts c =>
          simp only [Ex.sum.injEq, and_true]
          refine map_congr_mem _ _ _ (fun p hp => ?_)
          have hpi : p.2 < i := hch p.2 (by simp [Node.childIdxs]; exact ⟨p.1, hp⟩)
          rw [ih p.2 hpi g (by omega), ih p.2 hpi i (by omega)]
        | nprod js =>
          simp only [Ex.prod.injEq]
          refine map_congr_mem _ _ _ (fun j hj => ?_)
          have hji : j < i := hch j hj
          rw [ih j hji g (by omega), ih j hji i (by omega)]
        | npw j k =>
          have hji : j < i := hch j (by simp [Node.childIdxs])
          dsimp only
          rw [ih j hji g (by omega), ih j hji i (by omega)]
        | nfn g' j =>
          have hji : j < i := hch j (by simp [Node.childIdxs])
          dsimp only
          rw [ih j hji g (by omega), ih j hji i (by omega)]

/-- Reading below the old length is unaffected by extending a
well-formed arena (index form). -/
theorem readback_append (a ext : Arena) (hwf : ArenaWF a) (i : Nat)
    (hi : i < a.length) : readback (a ++ ext) i = readback a i :=
  readbackF_append (i + 1) a ext hwf i hi

mutual

/-- Interning a tree preserves well-formedness, only appends to the
arena, and returns an in-range index. -/
theorem intern_inv : ∀ (a : Arena) (e : Ex), ArenaWF a →
    ArenaWF (intern a e).1 ∧ (∃ ext, (intern a e).1 = a ++ ext) ∧
      (intern a e).2 < (intern a e).1.length
  | a, .var i => fun hwf => by
    rw [intern]
    have h := internNode_inv a (.nvar i) hwf (by simp [Node.childIdxs])
    exact ⟨h.1, h.2.1, h.2.2.1⟩
  | a, .num q => fun hwf => by
    rw [intern]
    have h := internNode_inv a (.nnum q) hwf (by simp [Node.childIdxs])
    exact ⟨h.1, h.2.1, h.2.2.1⟩
  | a, .sum ts c => fun hwf => by
    rw [intern]
    obtain ⟨hwf1, ⟨ext1, hext1⟩, hidxs⟩ := internTerms_inv a ts hwf
    have h := internNode_inv (internTerms a ts).1 (.nsum (internTerms a ts).2 c) hwf1
      (by simpa [Node.childIdxs] using hidxs)
    refine ⟨h.1, ?_, h.2.2.1⟩
    obtain ⟨ext2, hext2⟩ := h.2.1
    exact ⟨ext1 ++ ext2, by rw [hext2, hext1, List.append_assoc]⟩
  | a, .prod fs => fun hwf => by
    rw [intern]
    obtain ⟨hwf1, ⟨ext1, hext1⟩, hidxs⟩ := internList_inv a fs hwf
    have h := internNode_inv (internList a fs).1 (.nprod (internList a fs).2) hwf1
      (by simpa [Node.childIdxs] using hidxs)
    refine ⟨h.1, ?_, h.2.2.1⟩
    obtain ⟨ext2, hext2⟩ := h.2.1
    exact ⟨ext1 ++ ext2, by rw [hext2, hext1, List.append_assoc]⟩
  | a, .pw b k => fun hwf => by
    rw [intern]
    obtain ⟨hwf1, ⟨ext1, hext1⟩, hidx⟩ := intern_inv a b hwf
    have h := internNode_inv (intern a b).1 (.npw (intern a b).2 k) hwf1
      (by simpa [Node.childIdxs] using hidx)
    refine ⟨h.1, ?_, h.2.2.1⟩
    obtain ⟨ext2, hext2⟩ := h.2.1
    exact ⟨ext1 ++ ext2, by rw [hext2, hext1, List.append_assoc]⟩
  | a, .fn f x => fun hwf => by
    rw [intern]
    obtain ⟨hwf1, ⟨ext1, hext1⟩, hidx⟩ := intern_inv a x hwf
    have h := internNode_inv (intern a x).1 (.nfn f (intern a x).2) hwf1
      (by simpa [Node.childIdxs] using hidx)
    refine ⟨h.1, ?_, h.2.2.1⟩
    obtain ⟨ext2, hext2⟩ := h.2.1
    exact ⟨ext1 ++ ext2, by rw [hext2, hext1, List.append_assoc]⟩

/-- Interning a term list preserves well-formedness, only appends, and
returns in-range child indices. -/
theorem internTerms_inv : ∀ (a : Arena) (ts : List (Rat × Ex)), ArenaWF a →
    ArenaWF (internTerms a ts).1 ∧ (∃ ext, (internTerms a ts).1 = a ++ ext) ∧
      ∀ j ∈ (internTerms a ts).2.map Prod.snd, j < (internTerms a ts).1.length
  | a, [] => fun hwf => by
    rw [internTerms]
    exact ⟨hwf, ⟨[], by simp⟩, by simp⟩
  | a, (k, e) :: ts => fun hwf => by
    rw [internTerms]
    obtain ⟨hwf1, ⟨ext1, hext1⟩, hidx⟩ := intern_inv a e hwf
    obtain ⟨hwf2, ⟨ext2, hext2⟩, hidxs⟩ := internTerms_inv (intern a e).1 ts hwf1
    refine ⟨hwf2, ⟨ext1 ++ ext2, by rw [hext2, hext1, List.append_assoc]⟩, ?_⟩
    intro j hj
    simp only [List.map_cons, List.mem_cons] at hj
    rcases hj with hj | hj
    · subst hj
      calc (intern a e).2 < (intern a e).1.length := hidx
        _ ≤ (internTerms (intern a e).1 ts).1.length := by
            rw [hext2]; simp
    · exact hidxs j hj

/-- Interning a factor list preserves well-formedness, only appends,
and returns in-range child indices. -/
theorem internList_inv : ∀ (a : Arena) (es : List Ex), ArenaWF a →
    ArenaWF (internList a es).1 ∧ (∃ ext, (internList a es).1 = a ++ ext) ∧
      ∀ j ∈ (internList a es).2, j < (internList a es).1.length
  | a, [] => fun hwf => by
    rw [internList]
    exact ⟨hwf, ⟨[], by simp⟩, by simp⟩
  | a, e :: es => fun hwf => by
    rw [internList]
    obtain ⟨hwf1, ⟨ext1, hext1⟩, hidx⟩ := intern_inv a e hwf
    obtain ⟨hwf2, ⟨ext2, hext2⟩, hidxs⟩ := internList_inv (intern a e).1 es hwf1
    refine ⟨hwf2, ⟨ext1 ++ ext2, by rw [hext2, hext1, List.append_assoc]⟩, ?_⟩
    intro j hj
    rcases List.mem_cons.mp hj with hj | hj
    · subst hj
      calc (intern a e).2 < (intern a e).1.length := hidx
        _ ≤ (internList (intern a e).1 es).1.length := by
            rw [hext2]; simp
    · exact hidxs j hj

end

mutual

/-- Reading back an interned tree from the extended graph returns the
tree: interning loses no structure. -/
theorem intern_readback : ∀ (a : Arena) (e : Ex), ArenaWF a →
    readback (intern a e).1 (intern a e).2 = e
  | a, .var i => fun hwf => by
    rw [intern]
    have h := internNode_inv a (.nvar i) hwf (by simp [Node.childIdxs])
    rw [readback, readbackF, h.2.2.2]
  | a, .num q => fun hwf => by
    rw [intern]
    have h := internNode_inv a (.nnum q) hwf (by simp [Node.childIdxs])
    rw [readback, readbackF, h.2.2.2]
  | a, .sum ts c => fun hwf => by
    rw [intern]
    obtain ⟨hwf1, ⟨ext1, hext1⟩, hidxs⟩ := internTerms_inv a ts hwf
    have hrb := internTerms_readback a ts hwf
    have h := internNode_inv (internTerms a ts).1 (.nsum (internTerms a ts).2 c) hwf1
      (by simpa [Node.childIdxs] using hidxs)
    obtain ⟨hwf2, ⟨ext2, hext2⟩, hlt, hget⟩ := h
    rw [readback, readbackF, hget]
    dsimp only
    have hch := hwf2 _ _ hget
    simp only [Ex.sum.injEq, and_true]
    have hstep : ∀ p ∈ (internTerms a ts).2,
        readbackF (internNode (internTerms a ts).1 (.nsum (internTerms a ts).2 c)).2
          (internNode (internTerms a ts).1 (.nsum (internTerms a ts).2 c)).1 p.2 =
        readback (internTerms a ts).1 p.2 := by
      intro p hp
      have hplt : p.2 < (internNode (internTerms a ts).1
          (.nsum (internTerms a ts).2 c)).2 :=
        hch p.2 (by simp [Node.childIdxs]; exact ⟨p.1, hp⟩)
      rw [readbackF_mono _ hwf2 p.2 _ hplt, hext2,
        readback_append _ _ hwf1 p.2 (hidxs p.2 (by simp; exact ⟨p.1, hp⟩))]
    calc (internTerms a ts).2.map (fun p =>
          (p.1, readbackF (internNode (internTerms a ts).1 (.nsum (internTerms a ts).2 c)).2
            (internNode (internTerms a ts).1 (.nsum (internTerms a ts).2 c)).1 p.2))
        = (internTerms a ts).2.map (fun p => (p.1, readback (internTerms a ts).1 p.2)) :=
          map_congr_mem _ _ _ (fun p hp => by rw [hstep p hp])
      _ = ts := hrb
  | a, .prod fs => fun hwf => by
    rw [intern]
    obtain ⟨hwf1, ⟨ext1, hext1⟩, hidxs⟩ := internList_inv a fs hwf
    have hrb := internList_readback a fs hwf
    have h := internNode_inv (internList a fs).1 (.nprod (internList a fs).2) hwf1
      (by simpa [Node.childIdxs] using hidxs)
    obtain ⟨hwf2, ⟨ext2, hext2⟩, hlt, hget⟩ := h
    rw [readback, readbackF, hget]
    dsimp only
    have hch := hwf2 _ _ hget
    simp only [Ex.prod.injEq]
    calc (internList a fs).2.map (readbackF
            (internNode (internList a fs).1 (.nprod (internList a fs).2)).2
            (internNode (internList a fs).1 (.nprod (internList a fs).2)).1)
        = (internList a fs).2.map (readback (internList a fs).1) := by
          refine map_congr_mem _ _ _ (fun j hj => ?_)
          have hjlt := hch j (by simpa [Node.childIdxs] using hj)
          rw [readbackF_mono _ hwf2 j _ hjlt, hext2,
            readback_append _ _ hwf1 j (hidxs j hj)]
      _ = fs := hrb
  | a, .pw b k => fun hwf => by
    rw [intern]
    obtain ⟨hwf1, ⟨ext1, hext1⟩, hidx⟩ := intern_inv a b hwf
    have hrb := intern_readback a b hwf
    have h := internNode_inv (intern a b).1 (.npw (intern a b).2 k) hwf1
      (by simpa [Node.childIdxs] using hidx)
    obtain ⟨hwf2, ⟨ext2, hext2⟩, hlt, hget⟩ := h
    rw [readback, readbackF, hget]
    dsimp only
    have hch := hwf2 _ _ hget
    have hjlt := hch (intern a b).2 (by simp [Node.childIdxs])
    rw [readbackF_mono _ hwf2 _ _ hjlt, hext2,
      readback_append _ _ hwf1 _ hidx, hrb]
  | a, .fn f x => fun hwf => by
    rw [intern]
    obtain ⟨hwf1, ⟨ext1, hext1⟩, hidx⟩ := intern_inv a x hwf
    have hrb := intern_readback a x hwf
    have h := internNode_inv (intern a x).1 (.nfn f (intern a x).2) hwf1
      (by simpa [Node.childIdxs] using hidx)
    obtain ⟨hwf2, ⟨ext2, hext2⟩, hlt, hget⟩ := h
    rw [readback, readbackF, hget]
    dsimp only
    have hch := hwf2 _ _ hget
    have hjlt := hch (intern a x).2 (by simp [Node.childIdxs])
    rw [readbackF_mono _ hwf2 _ _ hjlt, hext2,
      readback_append _ _ hwf1 _ hidx, hrb]

/-- Reading back interned terms recovers the original term list. -/
theorem internTerms_readback : ∀ (a : Arena) (ts : List (Rat × Ex)), ArenaWF a →
    (internTerms a ts).2.map (fun p => (p.1, readback (internTerms a ts).1 p.2)) = ts
  | a, [] => fun hwf => by rw [internTerms]; rfl
  | a, (k, e) :: ts => fun hwf => by
    rw [internTerms]
    obtain ⟨hwf1, ⟨ext1, hext1⟩, hidx⟩ := intern_inv a e hwf
    obtain ⟨hwf2, ⟨ext2, hext2⟩, hidxs⟩ := internTerms_inv (intern a e).1 ts hwf1
    have hrb1 := intern_readback a e hwf
    have hrb2 := internTerms_readback (intern a e).1 ts hwf1
    dsimp only [List.map_cons]
    simp only [List.cons.injEq]
    refine ⟨?_, hrb2⟩
    simp only [Prod.mk.injEq, true_and]
    rw [hext2, readback_append _ _ hwf1 _ hidx, hrb1]

/-- Reading back interned factors recovers the original factor list. -/
theorem internList_readback : ∀ (a : Arena) (es : List Ex), ArenaWF a →
    (internList a es).2.map (readback (internList a es).1) = es
  | a, [] => fun hwf => by rw [internList]; rfl
  | a, e :: es => fun hwf => by
    rw [internList]
    obtain ⟨hwf1, ⟨ext1, hext1⟩, hidx⟩ := intern_inv a e hwf
    obtain ⟨hwf2, ⟨ext2, hext2⟩, hidxs⟩ := internList_inv (intern a e).1 es hwf1
    have hrb1 := intern_readback a e hwf
    have hrb2 := internList_readback (intern a e).1 es hwf1
    dsimp only [List.map_cons]
    simp only [List.cons.injEq]
    refine ⟨?_, hrb2⟩
    rw [hext2, readback_append _ _ hwf1 _ hidx, hrb1]

end

/-- `internNode` returns the found index when the node is present. -/
theorem internNode_found (a : Arena) (n : Node) (i : Nat)
    (h : idxOfNode a n = some i) : internNode a n = (a, i) := by
  rw [internNode, h]

/-- `internNode` appends the node when it is absent. -/
theorem internNode_new (a : Arena) (n : Node)
    (h : idxOfNode a n = none) : internNode a n = (a ++ [n], a.length) := by
  rw [internNode, h]

/-- An interning step that did not grow the arena found its node. -/
theorem internNode_no_growth (a : Arena) (n : Node) (i : Nat)
    (h : internNode a n = (a, i)) : idxOfNode a n = some i := by
  cases hf : idxOfNode a n with
  | some j =>
    rw [internNode_found a n j hf] at h
    obtain ⟨-, h2⟩ := Prod.mk.inj h
    rw [h2]
  | none =>
    rw [internNode_new a n hf] at h
    obtain ⟨h1, -⟩ := Prod.mk.inj h
    have := congrArg List.length h1
    simp at this

mutual

/-- An interning run that did not grow the arena is preserved by any
arena extension: all its lookups succeed in the prefix. -/
theorem intern_extend : ∀ (a : Arena) (e : Ex) (ext : Arena) (i : Nat), ArenaWF a →
    intern a e = (a, i) → intern (a ++ ext) e = (a ++ ext, i)
  | a, .var v, ext, i => fun hwf h => by
    rw [intern] at h ⊢
    exact internNode_found _ _ _ (idxOfNode_append_some a ext _ i (internNode_no_growth _ _ _ h))
  | a, .num q, ext, i => fun hwf h => by
    rw [intern] at h ⊢
    exact internNode_found _ _ _ (idxOfNode_append_some a ext _ i (internNode_no_growth _ _ _ h))
  | a, .sum ts c, ext, i => fun hwf h => by
    rw [intern] at h ⊢
    obtain ⟨hwf1, ⟨ext1, hext1⟩, hidxs⟩ := internTerms_inv a ts hwf
    obtain ⟨-, ⟨ext2, hext2⟩, -, -⟩ := internNode_inv (internTerms a ts).1
      (.nsum (internTerms a ts).2 c) hwf1 (by simpa [Node.childIdxs] using hidxs)
    have h1 : (internNode (internTerms a ts).1 (.nsum (internTerms a ts).2 c)).1 = a := by
      rw [h]
    have harena : a ++ (ext1 ++ ext2) = a := by
      rw [← List.append_assoc, ← hext1, ← hext2]
      exact h1
    have hnil2 : ext1 ++ ext2 = [] := append_eq_self _ _ harena
    have he1 : ext1 = [] := by
      cases hx : ext1 with
      | nil => rfl
      | cons y ys => rw [hx] at hnil2; simp at hnil2
    have hA : (internTerms a ts).1 = a := by rw [hext1, he1, List.append_nil]
    have hsplitS : internTerms a ts = (a, (internTerms a ts).2) := Prod.ext hA rfl
    rw [hA] at h
    have hfound := internNode_no_growth _ _ _ h
    rw [internTerms_extend a ts ext (internTerms a ts).2 hwf hsplitS]
    dsimp only
    exact internNode_found _ _ _ (idxOfNode_append_some a ext _ i hfound)
  | a, .prod fs, ext, i => fun hwf h => by
    rw [intern] at h ⊢
    obtain ⟨hwf1, ⟨ext1, hext1⟩, hidxs⟩ := internList_inv a fs hwf
    obtain ⟨-, ⟨ext2, hext2⟩, -, -⟩ := internNode_inv (internList a fs).1
      (.nprod (internList a fs).2) hwf1 (by simpa [Node.childIdxs] using hidxs)
    have h1 : (internNode (internList a fs).1 (.nprod (internList a fs).2)).1 = a := by
      rw [h]
    have harena : a ++ (ext1 ++ ext2) = a := by
      rw [← List.append_assoc, ← hext1, ← hext2]
      exact h1
    have hnil2 : ext1 ++ ext2 = [] := append_eq_self _ _ harena
    have he1 : ext1 = [] := by
      cases hx : ext1 with
      | nil => rfl
      | cons y ys => rw [hx] at hnil2; simp at hnil2
    have hA : (internList a fs).1 = a := by rw [hext1, he1, List.append_nil]
    have hsplitS : internList a fs = (a, (internList a fs).2) := Prod.ext hA rfl
    rw [hA] at h
    have hfound := internNode_no_growth _ _ _ h
    rw [internList_extend a fs ext (internList a fs).2 hwf hsplitS]
    dsimp only
    exact internNode_found _ _ _ (idxOfNode_append_some a ext _ i hfound)
  | a, .pw b k, ext, i => fun hwf h => by
    rw [intern] at h ⊢
    obtain ⟨hwf1, ⟨ext1, hext1⟩, hidx⟩ := intern_inv a b hwf
    obtain ⟨-, ⟨ext2, hext2⟩, -, -⟩ := internNode_inv (intern a b).1
      (.npw (intern a b).2 k) hwf1 (by simpa [Node.childIdxs] using hidx)
    have h1 : (internNode (intern a b).1 (.npw (intern a b).2 k)).1 = a := by
      rw [h]
    have harena : a ++ (ext1 ++ ext2) = a := by
      rw [← List.append_assoc, ← hext1, ← hext2]
      exact h1
    have hnil2 : ext1 ++ ext2 = [] := append_eq_self _ _ harena
    have he1 : ext1 = [] := by
      cases hx : ext1 with
      | nil => rfl
      | cons y ys => rw [hx] at hnil2; simp at hnil2
    have hA : (intern a b).1 = a := by rw [hext1, he1, List.append_nil]
    have hsplitB : intern a b = (a, (intern a b).2) := Prod.ext hA rfl
    rw [hA] at h
    have hfound := internNode_no_growth _ _ _ h
    rw [intern_extend a b ext (intern a b).2 hwf hsplitB]
    dsimp only
    exact internNode_found _ _ _ (idxOfNode_append_some a ext _ i hfound)
  | a, .fn f x, ext, i => fun hwf h => by
    rw [intern] at h ⊢
    obtain ⟨hwf1, ⟨ext1, hext1⟩, hidx⟩ := intern_inv a x hwf
    obtain ⟨-, ⟨ext2, hext2⟩, -, -⟩ := internNode_inv (intern a x).1
      (.nfn f (intern a x).2) hwf1 (by simpa [Node.childIdxs] using hidx)
    have h1 : (internNode (intern a x).1 (.nfn f (intern a x).2)).1 = a := by
      rw [h]
    have harena : a ++ (ext1 ++ ext2) = a := by
      rw [← List.append_assoc, ← hext1, ← hext2]
      exact h1
    have hnil2 : ext1 ++ ext2 = [] := append_eq_self _ _ harena
    have he1 : ext1 = [] := by
      cases hx : ext1 with
      | nil => rfl
      | cons y ys => rw [hx] at hnil2; simp at hnil2
    have hA : (intern a x).1 = a := by rw [hext1, he1, List.append_nil]
    have hsplitB : intern a x = (a, (intern a x).2) := Prod.ext hA rfl
    rw [hA] at h
    have hfound := internNode_no_growth _ _ _ h
    rw [intern_extend a x ext (intern a x).2 hwf hsplitB]
    dsimp only
    exact internNode_found _ _ _ (idxOfNode_append_some a ext _ i hfound)

/-- Term-list interning that did not grow the arena is preserved by
any arena extension. -/
theorem internTerms_extend : ∀ (a : Arena) (ts : List (Rat × Ex)) (ext : Arena)
    (ts' : List (Rat × Nat)), ArenaWF a →
    internTerms a ts = (a, ts') → internTerms (a ++ ext) ts = (a ++ ext, ts')
  | a, [], ext, ts' => fun hwf h => by
    rw [internTerms] at h ⊢
    obtain ⟨-, h2⟩ := Prod.mk.inj h
    rw [h2]
  | a, (k, e) :: ts, ext, ts' => fun hwf h => by
    rw [internTerms] at h ⊢
    obtain ⟨hwf1, ⟨ext1, hext1⟩, -⟩ := intern_inv a e hwf
    obtain ⟨-, ⟨ext2, hext2⟩, -⟩ := internTerms_inv (intern a e).1 ts hwf1
    obtain ⟨h1, h2⟩ := Prod.mk.inj h
    have harena : a ++ (ext1 ++ ext2) = a := by
      rw [← List.append_assoc, ← hext1, ← hext2]
      exact h1
    have hnil2 : ext1 ++ ext2 = [] := append_eq_self _ _ harena
    have he1 : ext1 = [] := by
      cases hx : ext1 with
      | nil => rfl
      | cons y ys => rw [hx] at hnil2; simp at hnil2
    have hA : (intern a e).1 = a := by rw [hext1, he1, List.append_nil]
    have hsplitE : intern a e = (a, (intern a e).2) := Prod.ext hA rfl
    rw [hA] at h1 h2
    have hsplitS : internTerms a ts = (a, (internTerms a ts).2) := Prod.ext h1 rfl
    rw [intern_extend a e ext (intern a e).2 hwf hsplitE]
    dsimp only
    rw [internTerms_extend a ts ext (internTerms a ts).2 hwf hsplitS]
    dsimp only
    rw [h2]

/-- Factor-list interning that did not grow the arena is preserved by
any arena extension. -/
theorem internList_extend : ∀ (a : Arena) (es : List Ex) (ext : Arena)
    (is' : List Nat), ArenaWF a →
    internList a es = (a, is') → internList (a ++ ext) es = (a ++ ext, is')
  | a, [], ext, is' => fun hwf h => by
    rw [internList] at h ⊢
    obtain ⟨-, h2⟩ := Prod.mk.inj h
    rw [h2]
  | a, e :: es, ext, is' => fun hwf h => by
    rw [internList] at h ⊢
    obtain ⟨hwf1, ⟨ext1, hext1⟩, -⟩ := intern_inv a e hwf
    obtain ⟨-, ⟨ext2, hext2⟩, -⟩ := internList_inv (intern a e).1 es hwf1
    obtain ⟨h1, h2⟩ := Prod.mk.inj h
    have harena : a ++ (ext1 ++ ext2) = a := by
      rw [← List.append_assoc, ← hext1, ← hext2]
      exact h1
    have hnil2 : ext1 ++ ext2 = [] := append_eq_self _ _ harena
    have he1 : ext1 = [] := by
      cases hx : ext1 with
      | nil => rfl
      | cons y ys => rw [hx] at hnil2; simp at hnil2
    have hA : (intern a e).1 = a := by rw [hext1, he1, List.append_nil]
    have hsplitE : intern a e = (a, (intern a e).2) := Prod.ext hA rfl
    rw [hA] at h1 h2
    have hsplitS : internList a es = (a, (internList a es).2) := Prod.ext h1 rfl
    rw [intern_extend a e ext (intern a e).2 hwf hsplitE]
    dsimp only
    rw [internList_extend a es ext (internList a es).2 hwf hsplitS]
    dsimp only
    rw [h2]

end

mutual

/-- Interning is stable: re-interning a tree into the arena it just
produced finds all its nodes again, returning the same arena and the
same index — re-simplification is a reference-counted no-op, not a
copy. -/
theorem intern_stable : ∀ (a : Arena) (e : Ex), ArenaWF a →
    intern ((intern a e).1) e = intern a e
  | a, .var v => fun hwf => by
    cases hf : idxOfNode a (.nvar v) with
    | some i =>
      have heq : intern a (.var v) = (a, i) := by
        rw [intern]; exact internNode_found _ _ _ hf
      rw [heq]
      dsimp only
      rw [intern]
      exact internNode_found _ _ _ hf
    | none =>
      have heq : intern a (.var v) = (a ++ [.nvar v], a.length) := by
        rw [intern]; exact internNode_new _ _ hf
      rw [heq]
      dsimp only
      rw [intern]
      exact internNode_found _ _ _ (idxOfNode_append_new _ _ hf)
  | a, .num q => fun hwf => by
    cases hf : idxOfNode a (.nnum q) with
    | some i =>
      have heq : intern a (.num q) = (a, i) := by
        rw [intern]; exact internNode_found _ _ _ hf
      rw [heq]
      dsimp only
      rw [intern]
      exact internNode_found _ _ _ hf
    | none =>
      have heq : intern a (.num q) = (a ++ [.nnum q], a.length) := by
        rw [intern]; exact internNode_new _ _ hf
      rw [heq]
      dsimp only
      rw [intern]
      exact internNode_found _ _ _ (idxOfNode_append_new _ _ hf)
  | a, .sum ts c => fun hwf => by
    obtain ⟨hwf1, ⟨ext1, hext1⟩, -⟩ := internTerms_inv a ts hwf
    have hstab := internTerms_stable a ts hwf
    have hsplit : internTerms (internTerms a ts).1 ts
        = ((internTerms a ts).1, (internTerms a ts).2) := hstab
    cases hf : idxOfNode (internTerms a ts).1 (.nsum (internTerms a ts).2 c) with
    | some i =>
      have heq : intern a (.sum ts c) = ((internTerms a ts).1, i) := by
        rw [intern]; exact internNode_found _ _ _ hf
      rw [heq]
      dsimp only
      rw [intern, hsplit]
      dsimp only
      exact internNode_found _ _ _ hf
    | none =>
      have heq : intern a (.sum ts c)
          = ((internTerms a ts).1 ++ [.nsum (internTerms a ts).2 c],
             (internTerms a ts).1.length) := by
        rw [intern]; exact internNode_new _ _ hf
      rw [heq]
      dsimp only
      rw [intern, internTerms_extend (internTerms a ts).1 ts
        [.nsum (internTerms a ts).2 c] (internTerms a ts).2 hwf1 hsplit]
      dsimp only
      exact internNode_found _ _ _ (idxOfNode_append_new _ _ hf)
  | a, .prod fs => fun hwf => by
    obtain ⟨hwf1, ⟨ext1, hext1⟩, -⟩ := internList_inv a fs hwf
    have hstab := internList_stable a fs hwf
    have hsplit : internList (internList a fs).1 fs
        = ((internList a fs).1, (internList a fs).2) := hstab
    cases hf : idxOfNode (internList a fs).1 (.nprod (internList a fs).2) with
    | some i =>
      have heq : intern a (.prod fs) = ((internList a fs).1, i) := by
        rw [intern]; exact internNode_found _ _ _ hf
      rw [heq]
      dsimp only
      rw [intern, hsplit]
      dsimp only
      exact internNode_found _ _ _ hf
    | none =>
      have heq : intern a (.prod fs)
          = ((internList a fs).1 ++ [.nprod (internList a fs).2],
             (internList a fs).1.length) := by
        rw [intern]; exact internNode_new _ _ hf
      rw [heq]
      dsimp only
      rw [intern, internList_extend (internList a fs).1 fs
        [.nprod (internList a fs).2] (internList a fs).2 hwf1 hsplit]
      dsimp only
      exact internNode_found _ _ _ (idxOfNode_append_new _ _ hf)
  | a, .pw b k => fun hwf => by
    obtain ⟨hwf1, ⟨ext1, hext1⟩, -⟩ := intern_inv a b hwf
    have hstab := intern_stable a b hwf
    have hsplit : intern ((intern a b).1) b = ((intern a b).1, (intern a b).2) := hstab
    cases hf : idxOfNode (intern a b).1 (.npw (intern a b).2 k) with
    | some i =>
      have heq : intern a (.pw b k) = ((intern a b).1, i) := by
        rw [intern]; exact internNode_found _ _ _ hf
      rw [heq]
      dsimp only
      rw [intern, hsplit]
      dsimp only
      exact internNode_found _ _ _ hf
    | none =>
      have heq : intern a (.pw b k)
          = ((intern a b).1 ++ [.npw (intern a b).2 k], (intern a b).1.length) := by
        rw [intern]; exact internNode_new _ _ hf
      rw [heq]
      dsimp only
      rw [intern, intern_extend (intern a b).1 b
        [.npw (intern a b).2 k] (intern a b).2 hwf1 hsplit]
      dsimp only
      exact internNode_found _ _ _ (idxOfNode_append_new _ _ hf)
  | a, .fn f x => fun hwf => by
    obtain ⟨hwf1, ⟨ext1, hext1⟩, -⟩ := intern_inv a x hwf
    have hstab := intern_stable a x hwf
    have hsplit : intern ((intern a x).1) x = ((intern a x).1, (intern a x).2) := hstab
    cases hf : idxOfNode (intern a x).1 (.nfn f (intern a x).2) with
    | some i =>
      have heq : intern a (.fn f x) = ((intern a x).1, i) := by
        rw [intern]; exact internNode_found _ _ _ hf
      rw [heq]
      dsimp only
      rw [intern, hsplit]
      dsimp only
      exact internNode_found _ _ _ hf
    | none =>
      have heq : intern a (.fn f x)
          = ((intern a x).1 ++ [.nfn f (intern a x).2], (intern a x).1.length) := by
        rw [intern]; exact internNode_new _ _ hf
      rw [heq]
      dsimp only
      rw [intern, intern_extend (intern a x).1 x
        [.nfn f (intern a x).2] (intern a x).2 hwf1 hsplit]
      dsimp only
      exact internNode_found _ _ _ (idxOfNode_append_new _ _ hf)

/-- Term-list interning is stable on its own result arena. -/
theorem internTerms_stable : ∀ (a : Arena) (ts : List (Rat × Ex)), ArenaWF a →
    internTerms ((internTerms a ts).1) ts = internTerms a ts
  | a, [] => fun hwf => by rw [internTerms, internTerms]
  | a, (k, e) :: ts => fun hwf => by
    obtain ⟨hwf1, ⟨ext1, hext1⟩, hidx⟩ := intern_inv a e hwf
    obtain ⟨hwf2, ⟨ext2, hext2⟩, -⟩ := internTerms_inv (intern a e).1 ts hwf1
    have hstabE := intern_stable a e hwf
    have hstabS := internTerms_stable (intern a e).1 ts hwf1
    have heq : internTerms a ((k, e) :: ts)
        = ((internTerms (intern a e).1 ts).1,
           (k, (intern a e).2) :: (internTerms (intern a e).1 ts).2) := by
      rw [internTerms]
    rw [heq]
    dsimp only
    rw [internTerms]
    have hE2 : intern ((internTerms (intern a e).1 ts).1) e
        = ((internTerms (intern a e).1 ts).1, (intern a e).2) := by
      rw [hext2]
      exact intern_extend (intern a e).1 e ext2 (intern a e).2 hwf1 hstabE
    rw [hE2]
    dsimp only
    rw [hstabS]

/-- Factor-list interning is stable on its own result arena. -/
theorem internList_stable : ∀ (a : Arena) (es : List Ex), ArenaWF a →
    internList ((internList a es).1) es = internList a es
  | a, [] => fun hwf => by rw [internList, internList]
  | a, e :: es => fun hwf => by
    obtain ⟨hwf1, ⟨ext1, hext1⟩, hidx⟩ := intern_inv a e hwf
    obtain ⟨hwf2, ⟨ext2, hext2⟩, -⟩ := internList_inv (intern a e).1 es hwf1
    have hstabE := intern_stable a e hwf
    have hstabS := internList_stable (intern a e).1 es hwf1
    have heq : internList a (e :: es)
        = ((internList (intern a e).1 es).1,
           (intern a e).2 :: (internList (intern a e).1 es).2) := by
      rw [internList]
    rw [heq]
    dsimp only
    rw [internList]
    have hE2 : intern ((internList (intern a e).1 es).1) e
        = ((internList (intern a e).1 es).1, (intern a e).2) := by
      rw [hext2]
      exact intern_extend (intern a e).1 e ext2 (intern a e).2 hwf1 hstabE
    rw [hE2]
    dsimp only
    rw [hstabS]

end

/-- Graph-level simplification is idempotent by identity: running it on
its own output returns the same arena and the same node index. -/
theorem gsimplify_idem (a : Arena) (i : Nat) (hwf : ArenaWF a) :
    gsimplify (gsimplify a i).1 (gsimplify a i).2 = gsimplify a i := by
  have hrb := intern_readback a (simplify (readback a i)) hwf
  have hstab := intern_stable a (simplify (readback a i)) hwf
  show intern (intern a (simplify (readback a i))).1
      (simplify (readback (intern a (simplify (readback a i))).1
        (intern a (simplify (readback a i))).2))
    = intern a (simplify (readback a i))
  rw [hrb, simplify_idem]
  exact hstab

theorem wfFrom_sound : ∀ (l : List Node) (k : Nat), wfFrom k l = true →
    ∀ i n, l.get? i = some n → ∀ j ∈ n.childIdxs, j < k + i := by
  intro l
  induction l with
  | nil => intro k h i n hg; simp at hg
  | cons m rest ih =>
    intro k h i n hg j hj
    rw [wfFrom, Bool.and_eq_true] at h
    match i, hg with
    | 0, hg =>
      injection hg with hg
      subst hg
      have := List.all_eq_true.mp h.1 j hj
      simp at this
      omega
    | i + 1, hg =>
      have := ih (k + 1) h.2 i n hg j hj
      omega

/-- An arena passing the boolean check is well formed. -/
theorem arenaWF_of_check (a : Arena) (h : wfFrom 0 a = true) : ArenaWF a := by
  intro i n hg j hj
  have := wfFrom_sound a 0 h i n hg j hj
  omega

/-- C9: Simplification is idempotent by identity: for every expression
`e`, `simplify (simplify e) = simplify e`, and at the graph level
re-simplifying a simplified node is a no-op returning the very same
node (same arena, same index — not a copy); moreover `x*x` and `x^2`
over the same shared variable node simplify to structurally identical
forms. -/
theorem C9_simplify_idempotent_identity :
    (∀ e : Ex, simplify (simplify e) = simplify e) ∧
    (∀ (a : Arena) (i : Nat), ArenaWF a →
      gsimplify (gsimplify a i).1 (gsimplify a i).2 = gsimplify a i) ∧
    simplify (.prod [.var 0, .var 0]) = simplify (.pw (.var 0) 2) := by
  refine ⟨simplify_idem, gsimplify_idem, ?_⟩
  have h1 : simplify (.prod [.var 0, .var 0]) = .pw (.var 0) 2 := by
    rw [simplify]
    simp only [simpList, simplify]
    simp [prodFlat, pwParts, groupFactors, addFactor, mkPw, mkProd]
  have h2 : simplify (.pw (.var 0) 2) = .pw (.var 0) 2 := by
    norm_num [simplify]
  rw [h1, h2]

/-- Witness for C9: the graph holding the single shared variable node
`x` is well formed, and graph-level simplification of the node is
idempotent by identity on it. -/
theorem C9_simplify_idempotent_identity_witness :
    ArenaWF [Node.nvar 0] ∧
    gsimplify (gsimplify [Node.nvar 0] 0).1 (gsimplify [Node.nvar 0] 0).2
      = gsimplify [Node.nvar 0] 0 :=
  ⟨arenaWF_of_check _ (by decide),
   C9_simplify_idempotent_identity.2.1 [Node.nvar 0] 0 (arenaWF_of_check _ (by decide))⟩

/-- A classified bilinear pair is strictly ordered by node index. -/
theorem classify_bilin_lt (a : Arena) (p : Rat × Nat) (u v : Nat) (k : Rat)
    (h : classifyTerm a p = .bilin u v k) : u < v := by
  rw [classifyTerm] at h
  cases hn : nodeAt a p.2 with
  | none => rw [hn] at h; simp at h
  | some n =>
    rw [hn] at h
    cases n with
    | nvar w => simp at h
    | nnum q => simp at h
    | nsum ts c => simp at h
    | nfn g j => simp at h
    | npw b e =>
      dsimp only at h
      by_cases he : e = 2
      · rw [if_pos he] at h; simp at h
      · rw [if_neg he] at h; simp at h
    | nprod js =>
      match js with
      | [] => simp at h
      | [x] => simp at h
      | [x, y] =>
        dsimp only at h
        by_cases hxy : x = y
        · rw [if_pos hxy] at h; simp at h
        · rw [if_neg hxy] at h
          obtain ⟨h1, h2, -⟩ := TermClass.bilin.inj h
          rw [← h1, ← h2]
          exact min_lt_max.mpr hxy
      | x :: y :: z :: rest => simp at h

/-- Folding classified terms preserves strict ordering of all bilinear
entries. -/
theorem buildStep_fold_bilin_lt (cls : List TermClass) :
    ∀ acc : NlhdlrExprData,
      (∀ b ∈ acc.bilinexprterms, b.expr1 < b.expr2) →
      (∀ c ∈ cls, ∀ u v k, c = TermClass.bilin u v k → u < v) →
      ∀ b ∈ (cls.foldl buildStep acc).bilinexprterms, b.expr1 < b.expr2 := by
  induction cls with
  | nil => intro acc hacc _ b hb; exact hacc b hb
  | cons c cls ih =>
    intro acc hacc hcls b hb
    rw [List.foldl_cons] at hb
    refine ih (buildStep acc c) ?_ (fun c' hc' => hcls c' (List.mem_cons_of_mem _ hc')) b hb
    intro b' hb'
    cases c with
    | square e k => exact hacc b' hb'
    | linear e k => exact hacc b' hb'
    | bilin u v k =>
      rw [buildStep] at hb'
      rcases List.mem_append.mp hb' with h' | h'
      · exact hacc b' h'
      · rw [List.mem_singleton] at h'
        subst h'
        exact hcls _ (List.mem_cons_self _ _) u v k rfl

/-- Every bilinear entry a detection run produces is strictly ordered:
the pair `(E2, E1)` is never produced alongside `(E1, E2)`. -/
theorem detect_bilin_ordered (a : Arena) (st : SolverState) (r : Nat)
    (d : NlhdlrExprData)
    (hd : (detectHdlrQuadratic a st r).1.nlhdlrexprdata = some d) :
    ∀ b ∈ d.bilinexprterms, b.expr1 < b.expr2 := by
  simp only [detectHdlrQuadratic] at hd
  have hcls : ∀ c ∈ (termsOf a r).map (classifyTerm a),
      ∀ u v k, c = TermClass.bilin u v k → u < v := by
    intro c hc u v k he
    obtain ⟨p, -, hp⟩ := List.mem_map.mp hc
    exact classify_bilin_lt a p u v k (hp.trans he)
  split at hd
  · split at hd
    · injection hd with hd
      subst hd
      exact buildStep_fold_bilin_lt _ _ (by simp) hcls
    · injection hd with hd
      subst hd
      exact buildStep_fold_bilin_lt _ _ (by simp) hcls
  · cases hd

/-- Annotating is a no-op on a variable node or on an already-annotated
subexpression. -/
theorem ensureAuxVar_noop (a : Arena) (st : SolverState) (i : Nat)
    (h : isVarNode a i = false → st.auxannot.contains i = true) :
    ensureAuxVar a st i = st := by
  rw [ensureAuxVar]
  by_cases hv : isVarNode a i = true
  · rw [if_pos hv]
  · rw [if_neg hv, if_pos (h (by revert hv; cases isVarNode a i <;> simp))]

/-- Annotation membership is monotone along a fold. -/
theorem foldl_ensureAuxVar_mono (a : Arena) (l : List Nat) :
    ∀ (st : SolverState) (x : Nat), st.auxannot.contains x = true →
      ((l.foldl (ensureAuxVar a) st).auxannot.contains x = true) := by
  induction l with
  | nil => intro st x h; exact h
  | cons i l ih =>
    intro st x h
    rw [List.foldl_cons]
    refine ih _ x ?_
    rw [ensureAuxVar]
    by_cases hv : isVarNode a i = true
    · rw [if_pos hv]; exact h
    · rw [if_neg hv]
      by_cases hm : st.auxannot.contains i = true
      · rw [if_pos hm]; exact h
      · rw [if_neg hm]
        show (st.auxannot ++ [i]).contains x = true
        rw [List.elem_iff] at h ⊢
        exact List.mem_append_left _ h

/-- After the fold every non-variable subexpression in the list is
annotated. -/
theorem foldl_ensureAuxVar_covers (a : Arena) (l : List Nat) :
    ∀ (st : SolverState) (i : Nat), i ∈ l → isVarNode a i = false →
      ((l.foldl (ensureAuxVar a) st).auxannot.contains i = true) := by
  induction l with
  | nil => intro st i h; simp at h
  | cons j l ih =>
    intro st i hi hv
    rw [List.foldl_cons]
    rcases List.mem_cons.mp hi with h' | h'
    · subst h'
      refine foldl_ensureAuxVar_mono a l _ i ?_
      rw [ensureAuxVar, if_neg (by rw [hv]; simp)]
      by_cases hm : st.auxannot.contains i = true
      · rw [if_pos hm]; exact hm
      · rw [if_neg hm]
        show (st.auxannot ++ [i]).contains i = true
        rw [List.elem_iff]
        exact List.mem_append_right _ (List.mem_singleton_self _)
    · exact ih _ i h' hv

/-- A fold of no-op annotations is the identity. -/
theorem foldl_ensureAuxVar_fix (a : Arena) (l : List Nat)
    (st : SolverState) (h : ∀ i ∈ l, ensureAuxVar a st i = st) :
    l.foldl (ensureAuxVar a) st = st := by
  induction l with
  | nil => rfl
  | cons i l ih =>
    rw [List.foldl_cons, h i (List.mem_cons_self _ _)]
    exact ih (fun j hj => h j (List.mem_cons_of_mem _ hj))

/-- Re-running the annotation fold on its own output changes nothing:
the annotation is idempotent and never double-allocates. -/
theorem foldl_ensureAuxVar_idem (a : Arena) (l : List Nat) (st : SolverState) :
    l.foldl (ensureAuxVar a) (l.foldl (ensureAuxVar a) st) = l.foldl (ensureAuxVar a) st := by
  refine foldl_ensureAuxVar_fix a l _ (fun i hi => ensureAuxVar_noop a _ i ?_)
  intro hv
  exact foldl_ensureAuxVar_covers a l st i hi hv

/-- C1: for the simplified `x^2 + x` the detector succeeds with exactly
one quadratic entry — the shared node of `x` with linear coefficient 1
and square coefficient 1 — no bilinear entries, and reports relaxation
capability (separation below provided, enforce-below true,
enforce-above false), not merely propagation. -/
theorem C1_detect_xsq_plus_x :
    detectHdlrQuadratic arenaXsqPlusX stInit 2
      = (⟨true, enfoSepaBelowProp, true, false, some ⟨[⟨0, 1, 1⟩], []⟩⟩, stInit) ∧
    enfoSepaBelowProp ≠ enfoProp := by
  constructor
  · norm_num [detectHdlrQuadratic, termsOf, arenaXsqPlusX, classifyTerm, mentionsOf,
      properQuadratic, hasDupIdx, cubicLike, buildQuadData, buildStep, upsertSqr, upsertLin,
      dataExprs, ensureAuxVar, isVarNode, isPwOrProdNode, stInit, nodeAt, enfoSepaBelowProp]
  · simp [enfoSepaBelowProp, enfoProp]

/-- C2: the detector succeeds only when the classified terms share
structure (a proper quadratic); in particular `x^2 + y^2 + w*z` over
four distinct variables is rejected entirely — success false, no
capability provided, and no decomposition data produced. -/
theorem C2_detect_reject_unshared :
    (∀ (a : Arena) (st : SolverState) (r : Nat),
      (detectHdlrQuadratic a st r).1.success = true →
        properQuadratic ((termsOf a r).map (classifyTerm a)) = true) ∧
    detectHdlrQuadratic arenaUnshared stInit 7
      = (⟨false, enfoNone, false, false, none⟩, stInit) := by
  constructor
  · intro a st r h
    simp only [detectHdlrQuadratic] at h
    by_cases hp : properQuadratic ((termsOf a r).map (classifyTerm a)) = true
    · exact hp
    · rw [if_neg hp] at h
      simp at h
  · norm_num [detectHdlrQuadratic, termsOf, arenaUnshared, classifyTerm, mentionsOf,
      properQuadratic, hasDupIdx, cubicLike, buildQuadData, buildStep, upsertSqr, upsertLin,
      dataExprs, ensureAuxVar, isVarNode, isPwOrProdNode, stInit, nodeAt, enfoNone]

/-- Witness for C2: the successful detection on `x^2 + x` satisfies the
theorem's hypothesis, and its classified terms are indeed a proper
quadratic. -/
theorem C2_detect_reject_unshared_witness :
    properQuadratic ((termsOf arenaXsqPlusX 2).map (classifyTerm arenaXsqPlusX)) = true :=
  C2_detect_reject_unshared.1 arenaXsqPlusX stInit 2 (by
    norm_num [detectHdlrQuadratic, termsOf, arenaXsqPlusX, classifyTerm, mentionsOf,
      properQuadratic, hasDupIdx, cubicLike, buildQuadData, buildStep, upsertSqr, upsertLin,
      dataExprs, ensureAuxVar, isVarNode, isPwOrProdNode, stInit, nodeAt])

/-- C3: for `x^2 + y^2 + z^2 * x` — a sum with a disqualifying
cubic-like term — the detector still succeeds but provides interval
evaluation and reverse propagation only: no separation, both
enforcement sides false, a third outcome distinct from full relaxation
capability and from total rejection. -/
theorem C3_detect_propagation_only :
    detectHdlrQuadratic arenaPropOnly stInit 7
      = (⟨true, enfoProp, false, false,
          some ⟨[⟨0, 0, 1⟩, ⟨1, 0, 1⟩], [⟨0, 5, 1⟩]⟩⟩, stInit) ∧
    enfoProp ≠ enfoSepaBelowProp ∧ enfoProp ≠ enfoNone := by
  refine ⟨?_, by simp [enfoProp, enfoSepaBelowProp], by simp [enfoProp, enfoNone]⟩
  norm_num [detectHdlrQuadratic, termsOf, arenaPropOnly, classifyTerm, mentionsOf,
    properQuadratic, hasDupIdx, cubicLike, buildQuadData, buildStep, upsertSqr, upsertLin,
    dataExprs, ensureAuxVar, isVarNode, isPwOrProdNode, stInit, nodeAt, enfoProp]

/-- C4: for `x^2 + 2*x*w + w^2` with `w = exp(y*x^2)` a shared
non-variable node, the detector produces exactly the quadratic entries
`(x, lin 0, sqr 1)` and `(w, lin 0, sqr 1)` and the single bilinear
entry `(x, w, 2)`; and in every detection result the bilinear pairs are
strictly ordered by creation index, so `(w, x)` is never additionally
produced. -/
theorem C4_detect_bilinear :
    (detectHdlrQuadratic arenaBilin stInit 7).1
      = ⟨true, enfoSepaBelowProp, true, false,
         some ⟨[⟨0, 0, 1⟩, ⟨4, 0, 1⟩], [⟨0, 4, 2⟩]⟩⟩ ∧
    (∀ (a : Arena) (st : SolverState) (r : Nat) (d : NlhdlrExprData),
      (detectHdlrQuadratic a st r).1.nlhdlrexprdata = some d →
        ∀ b ∈ d.bilinexprterms, b.expr1 < b.expr2) := by
  constructor
  · norm_num [detectHdlrQuadratic, termsOf, arenaBilin, classifyTerm, mentionsOf,
      properQuadratic, hasDupIdx, cubicLike, buildQuadData, buildStep, upsertSqr, upsertLin,
      dataExprs, ensureAuxVar, isVarNode, isPwOrProdNode, stInit, nodeAt, enfoSepaBelowProp]
  · exact detect_bilin_ordered

/-- Witness for C4: the bilinear entry `(x, w, 2)` of the concrete
detection is strictly ordered. -/
theorem C4_detect_bilinear_witness : (0 : Nat) < 4 :=
  C4_detect_bilinear.2 arenaBilin stInit 7
    ⟨[⟨0, 0, 1⟩, ⟨4, 0, 1⟩], [⟨0, 4, 2⟩]⟩
    (by
      norm_num [detectHdlrQuadratic, termsOf, arenaBilin, classifyTerm, mentionsOf,
        properQuadratic, hasDupIdx, cubicLike, buildQuadData, buildStep, upsertSqr, upsertLin,
        dataExprs, ensureAuxVar, isVarNode, isPwOrProdNode, stInit, nodeAt])
    ⟨0, 4, 2⟩ (List.mem_singleton_self _)

/-- Counterexample to C5 as stated: in the separation-capable outcome
on `x^2 + 2*x*w + w^2` the detector does allocate an auxiliary
variable for the non-variable node `w = exp(y*x^2)` — the variable set
grows from 4 to 5, so it is not unchanged in every outcome (the test
itself frees "auxvar(s) created by detect"). -/
theorem C5_detect_alloc_counterexample :
    (detectHdlrQuadratic arenaBilin stInit 7).2.nvars = 5 ∧ stInit.nvars = 4 ∧
    (detectHdlrQuadratic arenaBilin stInit 7).2 ≠ stInit := by
  refine ⟨?_, rfl, ?_⟩ <;>
    norm_num [detectHdlrQuadratic, termsOf, arenaBilin, classifyTerm, mentionsOf,
      properQuadratic, hasDupIdx, cubicLike, buildQuadData, buildStep, upsertSqr, upsertLin,
      dataExprs, ensureAuxVar, isVarNode, isPwOrProdNode, stInit, nodeAt]

/-- C5 (amended): detection leaves the solver's variable set untouched
whenever it does not provide separation (total rejection and the
propagation-only outcome), and its auxiliary-variable annotation is
idempotent — re-running detection on its own output state allocates
nothing new. -/
theorem C5_detect_state_frame :
    ∀ (a : Arena) (st : SolverState) (r : Nat),
      ((detectHdlrQuadratic a st r).1.provided.sepabelow = false →
        (detectHdlrQuadratic a st r).2 = st) ∧
      (detectHdlrQuadratic a ((detectHdlrQuadratic a st r).2) r).2
        = (detectHdlrQuadratic a st r).2 := by
  intro a st r
  constructor
  · simp only [detectHdlrQuadratic]
    by_cases hp : properQuadratic ((termsOf a r).map (classifyTerm a)) = true
    · rw [if_pos hp]
      by_cases hc : cubicLike a ((termsOf a r).map (classifyTerm a)) = true
      · rw [if_pos hc]
        intro _
        rfl
      · rw [if_neg hc]
        intro h
        exact absurd h (by simp [enfoSepaBelowProp])
    · rw [if_neg hp]
      intro _
      rfl
  · simp only [detectHdlrQuadratic]
    by_cases hp : properQuadratic ((termsOf a r).map (classifyTerm a)) = true
    · rw [if_pos hp, if_pos hp]
      by_cases hc : cubicLike a ((termsOf a r).map (classifyTerm a)) = true
      · rw [if_pos hc, if_pos hc]
      · rw [if_neg hc, if_neg hc]
        dsimp only
        exact foldl_ensureAuxVar_idem a _ st
    · rw [if_neg hp, if_neg hp]

/-- Witness for C5 (amended): on the propagation-only input
`x^2 + y^2 + z^2 * x` no separation is provided and the variable set is
untouched. -/
theorem C5_detect_state_frame_witness :
    (detectHdlrQuadratic arenaPropOnly stInit 7).2 = stInit :=
  (C5_detect_state_frame arenaPropOnly stInit 7).1 (by
    norm_num [detectHdlrQuadratic, termsOf, arenaPropOnly, classifyTerm, mentionsOf,
      properQuadratic, hasDupIdx, cubicLike, buildQuadData, buildStep, upsertSqr, upsertLin,
      dataExprs, ensureAuxVar, isVarNode, isPwOrProdNode, stInit, nodeAt, enfoProp])

/-- Counterexample to C7 as stated: the source's handler record has no
evaluate, simplify, hash, differentiate or interval-evaluate callback
slot — it declares only copy/free handler and data callbacks and a
print callback. -/
theorem C7_hdlr_slots_counterexample :
    "evaluate" ∉ srcExprHdlrCallbackSlots ∧
    "simplify" ∉ srcExprHdlrCallbackSlots ∧
    "hash" ∉ srcExprHdlrCallbackSlots ∧
    "differentiate" ∉ srcExprHdlrCallbackSlots ∧
    "interval-evaluate" ∉ srcExprHdlrCallbackSlots ∧
    specClaimedCallbackSlots ≠ srcExprHdlrCallbackSlots := by
  refine ⟨?_, ?_, ?_, ?_, ?_, ?_⟩ <;> simp [srcExprHdlrCallbackSlots, specClaimedCallbackSlots]

/-- C7 (amended): every expression handler record carries exactly a
unique name, a nullable description, handler-private data, and the
optional callback slots `copyhdlr`, `freehdlr`, `copydata`, `freedata`
and `print` — two records agreeing on these eight fields are equal, and
those five names are the record's capability slots. -/
theorem C7_hdlr_record_fields :
    (∀ h1 h2 : SCIP_ConsExpr_ExprHdlr, h1.name = h2.name → h1.desc = h2.desc →
      h1.data = h2.data → h1.copyhdlr = h2.copyhdlr → h1.freehdlr = h2.freehdlr →
      h1.copydata = h2.copydata → h1.freedata = h2.freedata →
      h1.print = h2.print → h1 = h2) ∧
    srcExprHdlrCallbackSlots = ["copyhdlr", "freehdlr", "copydata", "freedata", "print"] := by
  constructor
  · intro h1 h2 e1 e2 e3 e4 e5 e6 e7 e8
    cases h1
    cases h2
    simp only at e1 e2 e3 e4 e5 e6 e7 e8
    subst e1; subst e2; subst e3; subst e4; subst e5; subst e6; subst e7; subst e8
    rfl
  · rfl

/-- Witness for C7 (amended): a concrete stateless sum handler equals
itself via field-wise agreement. -/
theorem C7_hdlr_record_fields_witness :
    (⟨"sum", some "summation", none, none, none, none, none, some ⟨0⟩⟩
        : SCIP_ConsExpr_ExprHdlr)
      = ⟨"sum", some "summation", none, none, none, none, none, some ⟨0⟩⟩ :=
  C7_hdlr_record_fields.1 _ _ rfl rfl rfl rfl rfl rfl rfl rfl

theorem length_setL {α : Type} (l : List α) (i : Nat) (v : α) :
    (setL l i v).length = l.length := by
  induction l generalizing i with
  | nil => rfl
  | cons x rest ih =>
    match i with
    | 0 => rfl
    | i + 1 => simp only [setL, List.length_cons, ih]

theorem getL_setL_self {α : Type} (d : α) (l : List α) (i : Nat) (v : α)
    (h : i < l.length) : getL d (setL l i v) i = v := by
  induction l generalizing i with
  | nil => simp at h
  | cons x rest ih =>
    match i with
    | 0 => rfl
    | i + 1 => exact ih i (by simpa using h)

theorem getL_setL_ne {α : Type} (d : α) (l : List α) (i j : Nat) (v : α)
    (h : j ≠ i) : getL d (setL l i v) j = getL d l j := by
  induction l generalizing i j with
  | nil => rfl
  | cons x rest ih =>
    match i, j with
    | 0, 0 => exact absurd rfl h
    | 0, j + 1 => rfl
    | i + 1, 0 => rfl
    | i + 1, j + 1 => exact ih i j (by omega)

theorem listEq_of_getL {α : Type} (d : α) (l1 l2 : List α)
    (hlen : l1.length = l2.length) (h : ∀ i, getL d l1 i = getL d l2 i) :
    l1 = l2 := by
  induction l1 generalizing l2 with
  | nil =>
    cases l2 with
    | nil => rfl
    | cons y ys => simp at hlen
  | cons x xs ih =>
    cases l2 with
    | nil => simp at hlen
    | cons y ys =>
      have hx : x = y := h 0
      rw [hx, ih ys (by simpa using hlen) (fun i => h (i + 1))]

/-- With at least two holds, removing one is a plain decrement. -/
theorem removeHold_decrement (a : Arena) (f : Nat) (st : RcState) (i : Nat)
    (h : 2 ≤ getL 0 st.rc i) :
    removeHold a (f + 1) st i = { st with rc := setL st.rc i (getL 0 st.rc i - 1) } := by
  rw [removeHold]
  match hr : getL 0 st.rc i with
  | 0 => omega
  | 1 => omega
  | k + 2 => rfl

/-- With at least two holds, a release is a plain decrement. -/
theorem releaseExpr_decrement (a : Arena) (st : RcState) (i : Nat)
    (h : 2 ≤ getL 0 st.rc i) :
    releaseExpr a st i = { st with rc := setL st.rc i (getL 0 st.rc i - 1) } :=
  removeHold_decrement a i st i h

/-- Along a safe sequence the liveness never changes, the count table
keeps its length, and every node's count moves by exactly its capture
surplus. -/
theorem runRcOps_spec (a : Arena) :
    ∀ (ops : List RcOp) (st : RcState), safeRcOps a st ops = true →
      (runRcOps a st ops).rc.length = st.rc.length ∧
      (runRcOps a st ops).alive = st.alive ∧
      ∀ i, ((getL 0 (runRcOps a st ops).rc i : Nat) : Int)
        = ((getL 0 st.rc i : Nat) : Int) + ((countCapOf i ops : Nat) : Int)
          - ((countRelOf i ops : Nat) : Int) := by
  intro ops
  induction ops with
  | nil =>
    intro st _
    refine ⟨rfl, rfl, fun i => ?_⟩
    rw [runRcOps, countCapOf, countRelOf]
    omega
  | cons op ops ih =>
    intro st hsafe
    cases op with
    | cap j =>
      rw [safeRcOps, Bool.and_eq_true, decide_eq_true_eq] at hsafe
      obtain ⟨hlt, hsafe⟩ := hsafe
      obtain ⟨ih1, ih2, ih3⟩ := ih (captureExpr st j) hsafe
      rw [runRcOps]
      refine ⟨by rw [ih1]; exact length_setL _ _ _, ih2, fun i => ?_⟩
      rw [ih3 i, countCapOf, countRelOf]
      by_cases hij : i = j
      · subst hij
        rw [show getL 0 (captureExpr st i).rc i = getL 0 st.rc i + 1 from
          getL_setL_self _ _ _ _ hlt]
        rw [if_pos rfl]
        omega
      · rw [show getL 0 (captureExpr st j).rc i = getL 0 st.rc i from
          getL_setL_ne _ _ _ _ _ hij]
        rw [if_neg (fun h => hij h.symm)]
        omega
    | rel j =>
      rw [safeRcOps, Bool.and_eq_true, Bool.and_eq_true,
        decide_eq_true_eq, decide_eq_true_eq] at hsafe
      obtain ⟨⟨hlt, hge⟩, hsafe⟩ := hsafe
      obtain ⟨ih1, ih2, ih3⟩ := ih (releaseExpr a st j) hsafe
      rw [runRcOps]
      rw [releaseExpr_decrement a st j hge] at ih1 ih2 ih3 ⊢
      refine ⟨by rw [ih1]; exact length_setL _ _ _, ih2, fun i => ?_⟩
      rw [ih3 i, countCapOf, countRelOf]
      by_cases hij : i = j
      · subst hij
        rw [show getL 0 (setL st.rc i (getL 0 st.rc i - 1)) i = getL 0 st.rc i - 1 from
          getL_setL_self _ _ _ _ hlt]
        rw [if_pos rfl]
        omega
      · rw [show getL 0 (setL st.rc j (getL 0 st.rc j - 1)) i = getL 0 st.rc i from
          getL_setL_ne _ _ _ _ _ hij]
        rw [if_neg (fun h => hij h.symm)]
        omega

/-- C8: (1) for the built graph of x^2 + x with one external root hold,
every node's reference count equals the number of owning child slots
pointing at it plus its external holds; (2) after any safe balanced
sequence of capture/release calls (equal captures and releases per
node), the whole reference-count state returns to its prior value; (3)
releasing the last external hold on the root of x^2 + x cascades: every
node reaches count zero and is deallocated, leaving zero live nodes. -/
theorem C8_refcount_invariant :
    RcInv arenaXsqPlusX ⟨[2, 1, 1], [true, true, true]⟩ [0, 0, 1]
    ∧ (∀ (a : Arena) (ops : List RcOp) (st : RcState),
        safeRcOps a st ops = true →
        (∀ i, countCapOf i ops = countRelOf i ops) →
        runRcOps a st ops = st)
    ∧ releaseExpr arenaXsqPlusX ⟨[2, 1, 1], [true, true, true]⟩ 2
        = ⟨[0, 0, 0], [false, false, false]⟩ := by
  refine ⟨?_, ?_, by decide⟩
  · intro i
    match i with
    | 0 => decide
    | 1 => decide
    | 2 => decide
    | i + 3 =>
      have h1 : List.count (i + 3) ([0] : List Nat) = 0 :=
        List.count_eq_zero.mpr (by simp)
      have h2 : List.count (i + 3) ([1, 0] : List Nat) = 0 :=
        List.count_eq_zero.mpr (by simp)
      simp [slotCount, arenaXsqPlusX, Node.childIdxs, getL, h1, h2]
  · intro a ops st hsafe hbal
    obtain ⟨h1, h2, h3⟩ := runRcOps_spec a ops st hsafe
    have hrc : (runRcOps a st ops).rc = st.rc :=
      listEq_of_getL 0 _ _ h1
        (fun i => by have h := h3 i; have hb := hbal i; omega)
    calc runRcOps a st ops
        = ⟨(runRcOps a st ops).rc, (runRcOps a st ops).alive⟩ := rfl
      _ = ⟨st.rc, st.alive⟩ := by rw [hrc, h2]
      _ = st := rfl

/-- C8 witness: the balanced sequence capture x; release x on the live
x^2 + x state is safe and restores the state exactly. -/
theorem C8_refcount_invariant_witness :
    runRcOps arenaXsqPlusX ⟨[2, 1, 1], [true, true, true]⟩
        [RcOp.cap 0, RcOp.rel 0]
      = ⟨[2, 1, 1], [true, true, true]⟩ :=
  C8_refcount_invariant.2.1 arenaXsqPlusX [RcOp.cap 0, RcOp.rel 0]
    ⟨[2, 1, 1], [true, true, true]⟩ (by decide)
    (fun i => by simp [countCapOf, countRelOf])

theorem readStmts_append_ok (pre : List Stmt) :
    ∀ (rest : List Stmt) (st : FznState),
      fznHasError st = false → (∀ t ∈ pre, ContinuingStmt t) →
      readStmts (pre ++ rest) st
        = readStmts rest { st with prob := st.prob ++ payloadsOf pre } := by
  induction pre with
  | nil =>
    intro rest st _ _
    show readStmts rest st = _
    rw [payloadsOf, List.append_nil]
  | cons s pre ih =>
    intro rest st h hall
    obtain ⟨hok, hset, hout⟩ := hall s (by simp)
    rw [List.cons_append, readStmts, if_neg (by rw [h]; exact Bool.false_ne_true)]
    have hstep : ∀ st' : FznState,
        (match s.kind with
          | StmtKind.setDecl => { st' with valid := false }
          | StmtKind.outputItem => st'
          | StmtKind.unknownConst =>
            if s.parseOk then
              readStmts (pre ++ rest) { st' with prob := st'.prob ++ s.payload }
            else
              { st' with haserror := true,
                         diags := st'.diags ++ [⟨s.line, s.tok⟩],
                         earlyret := true }
          | _ =>
            if s.parseOk then
              readStmts (pre ++ rest) { st' with prob := st'.prob ++ s.payload }
            else
              { st' with haserror := true,
                         diags := st'.diags ++ [⟨s.line, s.tok⟩] })
        = readStmts (pre ++ rest) { st' with prob := st'.prob ++ s.payload } := by
      intro st'
      cases hk : s.kind with
      | setDecl => exact absurd hk hset
      | outputItem => exact absurd hk hout
      | unknownConst => dsimp only; rw [if_pos hok]
      | arrayDecl => dsimp only; rw [if_pos hok]
      | constraintDecl => dsimp only; rw [if_pos hok]
      | intConst => dsimp only; rw [if_pos hok]
      | floatConst => dsimp only; rw [if_pos hok]
      | boolConst => dsimp only; rw [if_pos hok]
      | solveItem => dsimp only; rw [if_pos hok]
      | varDecl => dsimp only; rw [if_pos hok]
    rw [hstep st,
      ih rest { st with prob := st.prob ++ s.payload } h
        (fun t ht => hall t (by simp [ht])),
      payloadsOf, List.append_assoc]

theorem readStmts_fail (s : Stmt) (rest : List Stmt) (st : FznState)
    (h : fznHasError st = false) (hfail : s.parseOk = false)
    (hset : s.kind ≠ StmtKind.setDecl) (hout : s.kind ≠ StmtKind.outputItem) :
    readStmts (s :: rest) st
      = { st with haserror := true, diags := st.diags ++ [⟨s.line, s.tok⟩],
                  earlyret := if s.kind = StmtKind.unknownConst then true
                              else st.earlyret } := by
  rw [readStmts, if_neg (by rw [h]; exact Bool.false_ne_true)]
  cases hk : s.kind with
  | setDecl => exact absurd hk hset
  | outputItem => exact absurd hk hout
  | unknownConst =>
    dsimp only
    rw [if_neg (by rw [hfail]; exact Bool.false_ne_true), if_pos rfl]
  | arrayDecl =>
    dsimp only
    rw [if_neg (by rw [hfail]; exact Bool.false_ne_true), if_neg (by decide)]
  | constraintDecl =>
    dsimp only
    rw [if_neg (by rw [hfail]; exact Bool.false_ne_true), if_neg (by decide)]
  | intConst =>
    dsimp only
    rw [if_neg (by rw [hfail]; exact Bool.false_ne_true), if_neg (by decide)]
  | floatConst =>
    dsimp only
    rw [if_neg (by rw [hfail]; exact Bool.false_ne_true), if_neg (by decide)]
  | boolConst =>
    dsimp only
    rw [if_neg (by rw [hfail]; exact Bool.false_ne_true), if_neg (by decide)]
  | solveItem =>
    dsimp only
    rw [if_neg (by rw [hfail]; exact Bool.false_ne_true), if_neg (by decide)]
  | varDecl =>
    dsimp only
    rw [if_neg (by rw [hfail]; exact Bool.false_ne_true), if_neg (by decide)]

/-- C6 counterexample: the input var x; (malformed constraint); var y;
refutes statement-level recovery — after the malformed constraint the
read does not continue with the remaining statement (y is never added)
and the already-built portion (the two auxiliary variables and x) is
discarded: the final problem is empty. -/
theorem C6_parse_recovery_counterexample :
    (readFZNFile [⟨StmtKind.varDecl, true, 1, 10, [2]⟩,
        ⟨StmtKind.constraintDecl, false, 5, 7, []⟩,
        ⟨StmtKind.varDecl, true, 6, 11, [3]⟩]).prob = [] ∧
    (readFZNFile [⟨StmtKind.varDecl, true, 1, 10, [2]⟩,
        ⟨StmtKind.constraintDecl, false, 5, 7, []⟩,
        ⟨StmtKind.varDecl, true, 6, 11, [3]⟩]).haserror = true := by
  decide

/-- C6 (amended): a malformed statement issues a diagnostic carrying
the offending line and token and sets the error flag; but the read is
not recoverable at the statement level: it stops at the first failing
statement (the remaining statements never influence the result), and
the already-built problem is kept only on the unknown-keyword early
return — on every other parse failure it is discarded and replaced by
an empty problem. -/
theorem C6_parse_error_stops (pre rest : List Stmt) (s : Stmt)
    (hpre : ∀ t ∈ pre, ContinuingStmt t)
    (hfail : s.parseOk = false)
    (hset : s.kind ≠ StmtKind.setDecl) (hout : s.kind ≠ StmtKind.outputItem) :
    (readFZNFile (pre ++ s :: rest)).haserror = true ∧
    (readFZNFile (pre ++ s :: rest)).diags = [⟨s.line, s.tok⟩] ∧
    readFZNFile (pre ++ s :: rest) = readFZNFile (pre ++ [s]) ∧
    (s.kind = StmtKind.unknownConst →
      (readFZNFile (pre ++ s :: rest)).prob = initFznState.prob ++ payloadsOf pre) ∧
    (s.kind ≠ StmtKind.unknownConst →
      (readFZNFile (pre ++ s :: rest)).prob = []) := by
  have hrun : ∀ r : List Stmt,
      readStmts (pre ++ s :: r) initFznState
        = { prob := initFznState.prob ++ payloadsOf pre, haserror := true,
            valid := true, diags := [⟨s.line, s.tok⟩], objsenseSet := false,
            earlyret := if s.kind = StmtKind.unknownConst then true else false } := by
    intro r
    rw [readStmts_append_ok pre (s :: r) initFznState rfl hpre,
      readStmts_fail s r
        { initFznState with prob := initFznState.prob ++ payloadsOf pre }
        rfl hfail hset hout]
    rfl
  have hfile : ∀ r : List Stmt,
      readFZNFile (pre ++ s :: r)
        = if s.kind = StmtKind.unknownConst then
            { prob := initFznState.prob ++ payloadsOf pre, haserror := true,
              valid := true, diags := [⟨s.line, s.tok⟩], objsenseSet := false,
              earlyret := true }
          else
            { prob := [], haserror := true, valid := true,
              diags := [⟨s.line, s.tok⟩], objsenseSet := false,
              earlyret := false } := by
    intro r
    rw [readFZNFile, hrun r]
    by_cases hk : s.kind = StmtKind.unknownConst
    · rw [if_pos hk, if_pos hk]
      rfl
    · rw [if_neg hk, if_neg hk]
      rfl
  refine ⟨?_, ?_, ?_, ?_, ?_⟩
  · rw [hfile rest]
    by_cases hk : s.kind = StmtKind.unknownConst
    · rw [if_pos hk]
    · rw [if_neg hk]
  · rw [hfile rest]
    by_cases hk : s.kind = StmtKind.unknownConst
    · rw [if_pos hk]
    · rw [if_neg hk]
  · rw [hfile rest, hfile []]
  · intro hk
    rw [hfile rest, if_pos hk]
  · intro hk
    rw [hfile rest, if_neg hk]

/-- C6 witness: on var x; (malformed constraint at line 5, token 7);
var y; the error flag is set and the diagnostic reports line 5 and
token 7. -/
theorem C6_parse_error_stops_witness :
    (readFZNFile [⟨StmtKind.varDecl, true, 1, 10, [2]⟩,
        ⟨StmtKind.constraintDecl, false, 5, 7, []⟩,
        ⟨StmtKind.varDecl, true, 6, 11, [3]⟩]).haserror = true ∧
    (readFZNFile [⟨StmtKind.varDecl, true, 1, 10, [2]⟩,
        ⟨StmtKind.constraintDecl, false, 5, 7, []⟩,
        ⟨StmtKind.varDecl, true, 6, 11, [3]⟩]).diags = [⟨5, 7⟩] :=
  have h := C6_parse_error_stops [⟨StmtKind.varDecl, true, 1, 10, [2]⟩]
    [⟨StmtKind.varDecl, true, 6, 11, [3]⟩]
    ⟨StmtKind.constraintDecl, false, 5, 7, []⟩
    (fun t ht => by
      have ht' : t = ⟨StmtKind.varDecl, true, 1, 10, [2]⟩ := by simpa using ht
      rw [ht']
      exact ⟨rfl, by decide, by decide⟩)
    rfl (by decide) (by decide)
  ⟨h.1, h.2.1⟩

/-- C10 counterexample: two refutations — on var x; set ...; the
partially built problem is indeed replaced by an empty one, but the
read reports success, not a parse error (only haserror is consulted,
and the set item clears valid without setting haserror); and on
var x; followed by an unparsable unknown-keyword statement, the read
returns early reporting a parse error while handing the partially
built problem (aux vars plus x) back to the caller. -/
theorem C10_discard_counterexample :
    (readerReadFzn [⟨StmtKind.varDecl, true, 1, 10, [2]⟩,
        ⟨StmtKind.setDecl, true, 2, 11, []⟩]).1 = RetCode.okSuccess ∧
    (readerReadFzn [⟨StmtKind.varDecl, true, 1, 10, [2]⟩,
        ⟨StmtKind.unknownConst, false, 3, 12, []⟩]).2.prob = [0, 1, 2] := by
  decide

/-- C10 (amended): the read reports a parse error exactly when the
haserror flag is set; an unsupported set item stops the read and
replaces the partial problem by an empty one but reports success (the
valid flag is cleared, not haserror); and an unparsable
unknown-keyword statement reports a parse error while returning the
partially built problem to the caller — so a partially read model can
be returned, and an emptied model can be returned as success. -/
theorem C10_read_error_outcome :
    (∀ stmts : List Stmt, ((readerReadFzn stmts).1 = RetCode.parseError ↔
        (readFZNFile stmts).haserror = true)) ∧
    (∀ (pre rest : List Stmt) (s : Stmt), (∀ t ∈ pre, ContinuingStmt t) →
        s.kind = StmtKind.setDecl →
        (readerReadFzn (pre ++ s :: rest)).1 = RetCode.okSuccess ∧
        (readerReadFzn (pre ++ s :: rest)).2.prob = []) ∧
    (∀ (pre rest : List Stmt) (s : Stmt), (∀ t ∈ pre, ContinuingStmt t) →
        s.kind = StmtKind.unknownConst → s.parseOk = false →
        (readerReadFzn (pre ++ s :: rest)).1 = RetCode.parseError ∧
        (readerReadFzn (pre ++ s :: rest)).2.prob
          = initFznState.prob ++ payloadsOf pre) := by
  refine ⟨?_, ?_, ?_⟩
  · intro stmts
    cases hb : (readFZNFile stmts).haserror with
    | false => simp [readerReadFzn, hb]
    | true => simp [readerReadFzn, hb]
  · intro pre rest s hpre hk
    have hr : readStmts (pre ++ s :: rest) initFznState
        = { prob := initFznState.prob ++ payloadsOf pre, haserror := false,
            valid := false, diags := [], objsenseSet := false,
            earlyret := false } := by
      rw [readStmts_append_ok pre (s :: rest) initFznState rfl hpre,
        readStmts, if_neg (by exact Bool.false_ne_true), hk]
      rfl
    have hfile : readFZNFile (pre ++ s :: rest)
        = { prob := [], haserror := false, valid := false, diags := [],
            objsenseSet := false, earlyret := false } := by
      rw [readFZNFile, hr]
      rfl
    exact ⟨by rw [readerReadFzn, hfile]; rfl, by rw [readerReadFzn, hfile]⟩
  · intro pre rest s hpre hk hfail
    have hr : readStmts (pre ++ s :: rest) initFznState
        = { prob := initFznState.prob ++ payloadsOf pre, haserror := true,
            valid := true, diags := [⟨s.line, s.tok⟩], objsenseSet := false,
            earlyret := true } := by
      rw [readStmts_append_ok pre (s :: rest) initFznState rfl hpre,
        readStmts_fail s rest
          { initFznState with prob := initFznState.prob ++ payloadsOf pre }
          rfl hfail (by rw [hk]; exact fun hh => by cases hh)
          (by rw [hk]; exact fun hh => by cases hh),
        if_pos hk]
      rfl
    have hfile : readFZNFile (pre ++ s :: rest)
        = { prob := initFznState.prob ++ payloadsOf pre, haserror := true,
            valid := true, diags := [⟨s.line, s.tok⟩], objsenseSet := false,
            earlyret := true } := by
      rw [readFZNFile, hr]
      rfl
    exact ⟨by rw [readerReadFzn, hfile]; rfl, by rw [readerReadFzn, hfile]⟩

/-- C10 witness: on var x; set ...; the read ends with a success code
and an empty problem. -/
theorem C10_read_error_outcome_witness :
    (readerReadFzn [⟨StmtKind.varDecl, true, 1, 10, [2]⟩,
        ⟨StmtKind.setDecl, true, 2, 11, []⟩]).1 = RetCode.okSuccess ∧
    (readerReadFzn [⟨StmtKind.varDecl, true, 1, 10, [2]⟩,
        ⟨StmtKind.setDecl, true, 2, 11, []⟩]).2.prob = [] :=
  C10_read_error_outcome.2.1 [⟨StmtKind.varDecl, true, 1, 10, [2]⟩] []
    ⟨StmtKind.setDecl, true, 2, 11, []⟩
    (fun t ht => by
      have ht' : t = ⟨StmtKind.varDecl, true, 1, 10, [2]⟩ := by simpa using ht
      rw [ht']
      exact ⟨rfl, by decide, by decide⟩)
    rfl

end ScipExpr
